import Mathlib

/-!
Verification of the `html2vimdoc-ng` converter: a shallow embedding of its
document model (`Node`), the mapper (`simplify_node`), the heading normalizer
(`shift_headings`), the reference collector (`find_references`) and the
renderer (`Node.render`-style functions below), together with theorems about
the behaviours claimed in the specification.

Machine integers are modelled as `Int`/`Nat` (Python integers are unbounded).
Operations that can raise a Python exception (attribute errors, key errors)
are modelled as `Option`-valued functions; `none` models the exception.
-/

namespace Html2Vimdoc

/-! ## Configuration constants (from the source header) -/

/-- `TEXT_WIDTH = 79` from the source. -/
def TEXT_WIDTH : Nat := 79

/-- `SHIFT_WIDTH = 2` from the source. -/
def SHIFT_WIDTH : Nat := 2

/-! ## Python string primitives, modelled over `List Char`

Core Lean `String` functions such as `splitOn` are defined by well-founded
recursion and do not reduce in the kernel, so every string operation the
program uses is implemented here by structural recursion over `toList`. -/

/-- The byte whitespace class of Python 2 `str` (space, tab, newline,
carriage return, vertical tab, form feed). -/
def pySpace (c : Char) : Bool :=
  c = ' ' || c = '\t' || c = '\n' || c = '\r' || c = '\x0b' || c = '\x0c'

/-- Python `text and not text.isspace()`: the string contains at least one
non-whitespace character. -/
def hasContent (s : String) : Bool := s.toList.any (fun c => !pySpace c)

/-- Python `s.strip() == ''`: the string is empty or all whitespace. -/
def chunkIsWs (s : String) : Bool := s.toList.all pySpace

/-- Python `s.lstrip()`. -/
def pyLstrip (s : String) : String := (s.toList.dropWhile pySpace).asString

/-- Python `sep.join(parts)`. -/
def pyJoin (sep : String) : List String → String
  | [] => ""
  | [x] => x
  | x :: y :: xs => x ++ sep ++ pyJoin sep (y :: xs)

/-- Helper for `pySplitWords`: accumulates the current word (reversed). -/
def wordsAux (cur : List Char) : List Char → List (List Char)
  | [] => if cur.isEmpty then [] else [cur.reverse]
  | c :: cs =>
      if pySpace c then
        if cur.isEmpty then wordsAux [] cs else cur.reverse :: wordsAux [] cs
      else wordsAux (c :: cur) cs

/-- Python `s.split()` (no argument): maximal runs of non-whitespace. -/
def pySplitWords (s : String) : List String := (wordsAux [] s.toList).map List.asString

/-- `compact` from the source: `" ".join(text.split())`. -/
def compact (s : String) : String := pyJoin " " (pySplitWords s)

/-- Decidable list-prefix test on characters. -/
def isPrefixList : List Char → List Char → Bool
  | [], _ => true
  | _ :: _, [] => false
  | p :: ps, c :: cs => p = c && isPrefixList ps cs

/-- Substring occurrence test on character lists. -/
def containsSeq (pat : List Char) : List Char → Bool
  | [] => isPrefixList pat []
  | c :: cs => isPrefixList pat (c :: cs) || containsSeq pat cs

/-- Python `pat in s` for strings. -/
def strContains (s pat : String) : Bool := containsSeq pat.toList s.toList

/-- Python `ch in s` for a single character. -/
def containsChar (ch : Char) (s : String) : Bool := s.toList.any (· = ch)

/-- Helper for `splitChar`: accumulates the current piece (reversed). -/
def splitCharAux (sepc : Char) (cur : List Char) : List Char → List (List Char)
  | [] => [cur.reverse]
  | c :: cs =>
      if c = sepc then cur.reverse :: splitCharAux sepc [] cs
      else splitCharAux sepc (c :: cur) cs

/-- Python `s.split(sep)` for a one-character separator (keeps empty pieces). -/
def splitChar (sepc : Char) (s : String) : List String :=
  (splitCharAux sepc [] s.toList).map List.asString

/-- The lines of a rendered string, split at `'\n'` (Python `s.split('\n')`). -/
def linesOf (s : String) : List String := splitChar '\n' s

/-- Python `s.splitlines()` for strings whose only line separator is `'\n'`:
like `split('\n')` but without a trailing empty piece. -/
def pySplitlines (s : String) : List String :=
  let parts := splitChar '\n' s
  match parts.getLast? with
  | some "" => parts.dropLast
  | _ => parts

/-- Value of a hexadecimal digit, if any. -/
def hexVal (c : Char) : Option Nat :=
  if '0' ≤ c ∧ c ≤ '9' then some (c.toNat - '0'.toNat)
  else if 'a' ≤ c ∧ c ≤ 'f' then some (c.toNat - 'a'.toNat + 10)
  else if 'A' ≤ c ∧ c ≤ 'F' then some (c.toNat - 'A'.toNat + 10)
  else none

/-- One piece after a `%` in `urllib.unquote`: decode the first two characters
as hex if possible, otherwise restore the literal `%`. -/
def unquotePart (part : String) : String :=
  match part.toList with
  | c1 :: c2 :: rest =>
      match hexVal c1, hexVal c2 with
      | some hi, some lo => (Char.ofNat (16 * hi + lo) :: rest).asString
      | _, _ => ('%' :: c1 :: c2 :: rest).asString
  | l => ('%' :: l).asString

/-- Python 2 `urllib.unquote`: split on `%`, decode each later piece. -/
def unquote (s : String) : String :=
  match splitChar '%' s with
  | [] => ""
  | first :: rest => first ++ pyJoin "" (rest.map unquotePart)

/-- A string of `n` spaces (Python `" " * n`). -/
def spaces (n : Nat) : String := (List.replicate n ' ').asString

/-! ## `textwrap.wrap`, modelled from Python 2.7's `textwrap.py`

The program always calls `textwrap.wrap` on the output of `compact`, which
contains no tabs, so `_munge_whitespace` reduces to mapping every whitespace
character to a space (tab expansion is omitted).  The word-separator regex's
hyphen handling is likewise irrelevant to the program's inputs and the claims
proved here, so chunks are maximal runs of whitespace / non-whitespace.
`break_long_words=True` and `drop_whitespace=True` are the defaults in use.
The `while chunks` loop of `_wrap_chunks` does not terminate for some inputs
(an empty chunk combined with a non-positive effective width re-appends an
empty piece forever); the model runs the loop on explicit fuel and returns
`none` where the Python loop diverges. -/

/-- `_munge_whitespace`: every whitespace character becomes a space. -/
def munge (s : String) : String :=
  (s.toList.map (fun c => if pySpace c then ' ' else c)).asString

/-- Helper for `splitChunks`: collect the current run (reversed `acc`) of
characters whose whitespace class is `cls`. -/
def runsGo (cls : Bool) (acc : List Char) : List Char → List String
  | [] => [acc.reverse.asString]
  | c :: cs =>
      if pySpace c = cls then runsGo cls (c :: acc) cs
      else acc.reverse.asString :: runsGo (pySpace c) [c] cs

/-- `_split`: alternating maximal runs of whitespace and non-whitespace. -/
def splitChunks (s : String) : List String :=
  match s.toList with
  | [] => []
  | c :: cs => runsGo (pySpace c) [c] cs

/-- The inner greedy loop of `_wrap_chunks`: pop chunks onto the current line
while they fit.  Returns the chunks taken, the resulting line length, and the
remaining chunks. -/
def greedy (we : Int) (curLen : Nat) : List String → List String × Nat × List String
  | [] => ([], curLen, [])
  | c :: cs =>
      if (curLen + c.length : Int) ≤ we then
        let r := greedy we (curLen + c.length) cs
        (c :: r.1, r.2.1, r.2.2)
      else ([], curLen, c :: cs)

/-- `_handle_long_word` with `break_long_words=True`: split the first chunk at
`space_left` (at least one column when the width is degenerate).  Returns the
piece appended to the current line and the updated chunk list. -/
def handleLongWord (we : Int) (curLen : Nat) (c : String) (cs : List String) :
    List String × List String :=
  let spaceLeft : Int := if we < 1 then 1 else we - curLen
  let n : Nat := spaceLeft.toNat
  ([(c.toList.take n).asString], (c.toList.drop n).asString :: cs)

/-- `if cur_line and cur_line[-1].strip() == '': del cur_line[-1]`. -/
def dropTrailingWsChunk (cur : List String) : List String :=
  match cur.getLast? with
  | some last => if chunkIsWs last then cur.dropLast else cur
  | none => cur

/-- The body of one `while chunks` iteration, after the leading-whitespace
drop: the greedy loop, the long-word handling, and the trailing-whitespace
drop.  Returns the chunks making up the current line and the remaining
chunk list. -/
def lineBuild (we : Int) (chunks : List String) : List String × List String :=
  let g := greedy we 0 chunks
  let step : List String × List String :=
    match g.2.2 with
    | [] => (g.1, [])
    | d :: ds =>
        if (d.length : Int) > we then
          let h := handleLongWord we g.2.1 d ds
          (g.1 ++ h.1, h.2)
        else (g.1, d :: ds)
  (dropTrailingWsChunk step.1, step.2)

/-- One outer `while chunks` iteration per fuel unit; `emitted` records
whether `lines` is non-empty so far (it selects the indent and enables the
leading-whitespace drop). -/
def wrapGo (width : Int) (ii si : String) : Nat → List String → Bool → Option (List String)
  | _, [], _ => some []
  | 0, _ :: _, _ => none
  | fuel + 1, c0 :: rest0, emitted =>
      let indent := if emitted then si else ii
      let we : Int := width - indent.length
      let chunks1 := if emitted && chunkIsWs c0 then rest0 else c0 :: rest0
      match chunks1 with
      | [] => some []
      | c1 :: rest1 =>
          let lb := lineBuild we (c1 :: rest1)
          if lb.1.isEmpty then wrapGo width ii si fuel lb.2 emitted
          else
            match wrapGo width ii si fuel lb.2 true with
            | some ls => some ((indent ++ pyJoin "" lb.1) :: ls)
            | none => none

/-- `textwrap.wrap(text, width, initial_indent, subsequent_indent)`.  The fuel
bound exceeds the number of loop iterations of every terminating run. -/
def pyWrap (text : String) (width : Int) (ii si : String) : Option (List String) :=
  let chunks := splitChunks (munge text)
  wrapGo width ii si ((chunks.map String.length).sum + chunks.length + 1) chunks false

/-! ## `textwrap.dedent`, modelled from Python 2.7 -/

/-- A line matching `^[ \t]+$` (whitespace-only, non-empty). -/
def wsOnlyLine (l : String) : Bool :=
  !l.toList.isEmpty && l.toList.all (fun c => c = ' ' || c = '\t')

/-- The leading `[ \t]*` of a line. -/
def leadingWs (l : String) : String :=
  (l.toList.takeWhile (fun c => c = ' ' || c = '\t')).asString

/-- A line contributing to the margin: it contains a character outside
`[ \t\n]` (newlines never occur inside a split line). -/
def contributesMargin (l : String) : Bool :=
  l.toList.any (fun c => !(c = ' ' || c = '\t'))

/-- The margin-narrowing loop of `textwrap.dedent`. -/
def marginGo (m : String) : List String → String
  | [] => m
  | ind :: rest =>
      if isPrefixList m.toList ind.toList then marginGo m rest
      else if isPrefixList ind.toList m.toList then marginGo ind rest
      else ""

/-- `textwrap.dedent(text)`: blank out whitespace-only lines, compute the
common leading whitespace of the remaining lines, and strip it. -/
def pyDedent (text : String) : String :=
  let ls := (splitChar '\n' text).map (fun l => if wsOnlyLine l then "" else l)
  let inds := (ls.filter (fun l => contributesMargin l)).map leadingWs
  match inds with
  | [] => pyJoin "\n" ls
  | i :: rest =>
      let m := marginGo i rest
      if m.toList.isEmpty then pyJoin "\n" ls
      else pyJoin "\n" (ls.map (fun l =>
        if isPrefixList m.toList l.toList then (l.toList.drop m.length).asString else l))

/-! ## The document model

One variant per concrete parse-tree class of the source.  A `Ref` is the
payload of a `Reference` node (`number`, `target`); the hyperlink's mutable
`reference` attribute is an `Option Ref` (unset until the reference collector
assigns it).

In the source, the default `Node.parse` stores a single sequence node in
`contents`, but every consumer (`walk_tree`, the join helpers, `List.render`)
iterates over `contents`, and iterating a node yields its children
(`Node.__iter__`), so every consumer transparently sees the list of
simplified children.  The model therefore stores that list directly. -/

structure Ref where
  number : Nat
  target : String
  deriving DecidableEq

inductive Node where
  | blockSeq (contents : List Node)
  | heading (level : Int) (contents : List Node)
  | paragraph (contents : List Node)
  | pre (text : String)
  | list (ordered : Bool) (contents : List Node)
  | listItem (contents : List Node)
  | table (contents : List Node)
  | reference (number : Nat) (target : String)
  | inlineSeq (contents : List Node)
  | hyperLink (text : String) (target : String) (ref : Option Ref)
  | text (s : String)

/-- `getattr(node, 'contents', [])` as used by `walk_tree`: the child-node
list.  `PreformattedText.contents` and `Text.contents` are `[self.text]`, a
raw string rather than a node, so they contribute no child nodes; `HyperLink`
and `Reference` have no `contents` attribute. -/
def childrenOf : Node → List Node
  | .blockSeq cs => cs
  | .heading _ cs => cs
  | .paragraph cs => cs
  | .pre _ => []
  | .list _ cs => cs
  | .listItem cs => cs
  | .table cs => cs
  | .reference _ _ => []
  | .inlineSeq cs => cs
  | .hyperLink _ _ _ => []
  | .text _ => []

mutual
/-- `walk_tree`: the pre-order flattening of the tree. -/
def walkTree : Node → List Node
  | .blockSeq cs => .blockSeq cs :: walkList cs
  | .heading l cs => .heading l cs :: walkList cs
  | .paragraph cs => .paragraph cs :: walkList cs
  | .pre t => [.pre t]
  | .list o cs => .list o cs :: walkList cs
  | .listItem cs => .listItem cs :: walkList cs
  | .table cs => .table cs :: walkList cs
  | .reference n t => [.reference n t]
  | .inlineSeq cs => .inlineSeq cs :: walkList cs
  | .hyperLink tx tg r => [.hyperLink tx tg r]
  | .text s => [.text s]

def walkList : List Node → List Node
  | [] => []
  | n :: ns => walkTree n ++ walkList ns
end

/-! ## `shift_headings` -/

/-- One step of the minimum-finding loop of `shift_headings`. -/
def minHeadingStep (acc : Option Int) (n : Node) : Option Int :=
  match n with
  | .heading l _ =>
      match acc with
      | none => some l
      | some m => if l < m then some l else some m
  | _ => acc

/-- The first pass of `shift_headings`: the smallest heading level in the
tree, `none` when there are no headings. -/
def minHeadingLevel (t : Node) : Option Int :=
  (walkTree t).foldl minHeadingStep none

mutual
/-- The second pass of `shift_headings`: `node.level -= c` on every heading
(the source mutates each heading found by `walk_tree`; the pure translation
rebuilds the tree). -/
def shiftNode (c : Int) : Node → Node
  | .blockSeq cs => .blockSeq (shiftList c cs)
  | .heading l cs => .heading (l - c) (shiftList c cs)
  | .paragraph cs => .paragraph (shiftList c cs)
  | .pre t => .pre t
  | .list o cs => .list o (shiftList c cs)
  | .listItem cs => .listItem (shiftList c cs)
  | .table cs => .table (shiftList c cs)
  | .reference n t => .reference n t
  | .inlineSeq cs => .inlineSeq (shiftList c cs)
  | .hyperLink tx tg r => .hyperLink tx tg r
  | .text s => .text s

def shiftList (c : Int) : List Node → List Node
  | [] => []
  | n :: ns => shiftNode c n :: shiftList c ns
end

/-- `shift_headings`: shift every heading so the smallest level becomes 1,
a no-op when there is no heading or the minimum is already ≤ 1. -/
def shift_headings (t : Node) : Node :=
  match minHeadingLevel t with
  | none => t
  | some m => if 1 < m then shiftNode (m - 1) t else t

/-- The level of a heading node, `none` for any other node. -/
def levelOf : Node → Option Int
  | .heading l _ => some l
  | _ => none

/-- The heading levels of a tree in reading order. -/
def headingLevels (t : Node) : List Int := (walkTree t).filterMap levelOf

/-! ## `find_references` -/

/-- The collector state: the keys of the `by_target` dict (only membership is
ever consulted; each key's value is the entry appended to `by_reference` at
the same moment) and the `by_reference` list. -/
structure RefState where
  byTarget : List String
  byReference : List Ref

mutual
/-- `find_references`, threaded over one node: when the node is a hyperlink,
decode its target; skip it if the target was seen before or is relative or
literal; otherwise append a numbered entry and set the node's `reference`.
Other nodes only propagate the state to their children (the flattened
`walk_tree` order is exactly this pre-order traversal). -/
def frNode (s : RefState) : Node → RefState × Node
  | .hyperLink tx tg r =>
      let target := unquote tg
      if target ∈ s.byTarget then (s, .hyperLink tx tg r)
      else if strContains target "://" = false ∨ target = tx then (s, .hyperLink tx tg r)
      else
        let entry : Ref := ⟨s.byReference.length + 1, target⟩
        (⟨s.byTarget ++ [target], s.byReference ++ [entry]⟩, .hyperLink tx tg (some entry))
  | .blockSeq cs => let r := frList s cs; (r.1, .blockSeq r.2)
  | .heading l cs => let r := frList s cs; (r.1, .heading l r.2)
  | .paragraph cs => let r := frList s cs; (r.1, .paragraph r.2)
  | .pre t => (s, .pre t)
  | .list o cs => let r := frList s cs; (r.1, .list o r.2)
  | .listItem cs => let r := frList s cs; (r.1, .listItem r.2)
  | .table cs => let r := frList s cs; (r.1, .table r.2)
  | .reference n t => (s, .reference n t)
  | .inlineSeq cs => let r := frList s cs; (r.1, .inlineSeq r.2)
  | .text str => (s, .text str)

def frList (s : RefState) : List Node → RefState × List Node
  | [] => (s, [])
  | n :: ns =>
      let r1 := frNode s n
      let r2 := frList r1.1 ns
      (r2.1, r1.2 :: r2.2)
end

/-- `find_references`: returns the tree with references attached and the
ordered list of reference entries. -/
def find_references (t : Node) : Node × List Ref :=
  let r := frNode ⟨[], []⟩ t
  (r.2, r.1.byReference)

/-! ## The renderer

`render(level)` for every node variant.  A hyperlink whose `reference` was
never assigned raises `AttributeError` in the source; rendering is therefore
`Option`-valued and `none` propagates outward like the exception (it also
covers the diverging `textwrap` corner modelled by `pyWrap`'s fuel). -/

/-- `isinstance(n, BlockLevelNode)`. -/
def isBlockNode : Node → Bool
  | .blockSeq _ => true
  | .heading _ _ => true
  | .paragraph _ => true
  | .pre _ => true
  | .list _ _ => true
  | .listItem _ => true
  | .table _ => true
  | .reference _ _ => true
  | .inlineSeq _ => false
  | .hyperLink _ _ _ => false
  | .text _ => false

/-- `is_block_level(contents)`: some node in the sequence is block level. -/
def is_block_level (ns : List Node) : Bool := ns.any isBlockNode

/-- `isinstance(n, PreformattedText)` (the special join case). -/
def isPre : Node → Bool
  | .pre _ => true
  | _ => false

/-- `isinstance(n, ListItem)`. -/
def isListItemNode : Node → Bool
  | .listItem _ => true
  | _ => false

/-- The full-width marker line above a heading:
`('=' if level == 1 else '-') * 79`. -/
def headingRule (l : Int) : String :=
  (List.replicate 79 (if l = 1 then '=' else '-')).asString

/-- `PreformattedText.render`: dedent, drop blank boundary lines, indent by
`level + 4` spaces, prepend the `>` fence. -/
def renderPre (text : String) (level : Nat) : String :=
  let indent := spaces (level + 4)
  let t := pyDedent text
  let ls0 := pySplitlines t
  let ls1 := ls0.dropWhile (fun l => !hasContent l)
  let ls2 := (ls1.reverse.dropWhile (fun l => !hasContent l)).reverse
  pyJoin "\n" (">" :: ls2.map (fun l => indent ++ l))

mutual
/-- `render(level)` for each node variant. -/
def renderNode : Node → Nat → Option String
  | .blockSeq cs, level => joinBlocksGo cs level ""
  | .heading l cs, level =>
      match renderEach cs level with
      | none => none
      | some parts =>
          match pyWrap (compact (pyJoin "" parts)) ((TEXT_WIDTH : Int) - 2) "" "" with
          | none => none
          | some ls =>
              some (pyJoin "\n" (headingRule l :: ls.map (fun line => line ++ " ~")))
  | .paragraph cs, level =>
      match renderEach cs level with
      | none => none
      | some parts =>
          let ind := spaces (level * SHIFT_WIDTH)
          match pyWrap (compact (pyJoin "" parts)) (TEXT_WIDTH : Int) ind ind with
          | none => none
          | some ls => some (pyJoin "\n" ls)
  | .pre t, level => some (renderPre t level)
  | .list ordered cs, level => renderListGo ordered level cs [] "\n"
  | .listItem cs, level =>
      if is_block_level cs then joinBlocksGo cs level ""
      else
        match renderEach cs level with
        | none => none
        | some parts => some (compact (pyJoin "" parts))
  | .table _, _ => some ""
  | .reference n t, _ => some ("[" ++ toString n ++ "] " ++ t)
  | .inlineSeq cs, level =>
      match renderEach cs level with
      | none => none
      | some parts => some (compact (pyJoin "" parts))
  | .hyperLink tx _ r, _ =>
      match r with
      | some entry => some (tx ++ " [" ++ toString entry.number ++ "]")
      | none => none
  | .text s, _ => some s

/-- The renders of every node in a sequence (the generator inside
`join_inline`); `none` if any of them raises. -/
def renderEach : List Node → Nat → Option (List String)
  | [], _ => some []
  | n :: ns, level =>
      match renderNode n level, renderEach ns level with
      | some t, some ts => some (t :: ts)
      | _, _ => none

/-- The loop of `join_blocks`, carrying the output accumulated so far:
results without content are dropped, preformatted blocks attach with a
single newline, other blocks with a blank line. -/
def joinBlocksGo : List Node → Nat → String → Option String
  | [], _, out => some out
  | n :: ns, level, out =>
      match renderNode n level with
      | none => none
      | some t =>
          let out' :=
            if hasContent t then
              if out = "" then t
              else if isPre n then out ++ "\n" ++ t
              else out ++ "\n\n" ++ t
            else out
          joinBlocksGo ns level out'

/-- The loop of `List.render`, carrying the rendered items and the current
delimiter: only `ListItem` children are rendered; the bullet is numbered from
the items rendered so far; the item is rendered at
`level + len(bullet) / SHIFT_WIDTH` (Python 2 floor division); a multi-line
item switches the delimiter to a blank line. -/
def renderListGo (ordered : Bool) (level : Nat) :
    List Node → List String → String → Option String
  | [], items, delim => some (pyJoin delim items)
  | n :: ns, items, delim =>
      if isListItemNode n then
        let ind := spaces (level * SHIFT_WIDTH)
        let bullet := if ordered then toString (items.length + 1) ++ ". " else "- "
        match renderNode n (level + bullet.length / SHIFT_WIDTH) with
        | none => none
        | some t =>
            renderListGo ordered level ns (items ++ [ind ++ bullet ++ pyLstrip t])
              (if containsChar '\n' t then "\n\n" else delim)
      else renderListGo ordered level ns items delim
end

/-! ## The mapper (`simplify_node`)

The external `BeautifulSoup` tree is a tree of elements (name, attributes,
children) and text leaves (`NavigableString`). -/

inductive HtmlNode where
  | nstring (s : String)
  | element (name : String) (attrs : List (String × String)) (children : List HtmlNode)

mutual
/-- `''.join(html_node.findAll(text=True))`: all text of a subtree in
document order. -/
def allTextNode : HtmlNode → String
  | .nstring s => s
  | .element _ _ cs => allTextList cs

def allTextList : List HtmlNode → String
  | [] => ""
  | c :: cs => allTextNode c ++ allTextList cs
end

/-- `html_node[key]` on the attribute dict, as an `Option` (a missing key
raises `KeyError` in the source). -/
def lookupAttr (attrs : List (String × String)) (key : String) : Option String :=
  match attrs with
  | [] => none
  | (k, v) :: rest => if k = key then some v else lookupAttr rest key

/-- The element names registered in `name_to_type_mapping` by the
`@html_element` decorators. -/
def name_to_type_names : List String :=
  ["h1", "h2", "h3", "h4", "h5", "h6", "p", "pre", "ul", "ol", "li", "table", "a"]

/-- `int(html_node.name[1])` for a heading tag name. -/
def headingLevelOfName (name : String) : Int :=
  match name.toList with
  | _ :: c :: _ => (c.toNat : Int) - ('0'.toNat : Int)
  | _ => 0

mutual
/-- `simplify_node`: text leaves become `Text`; elements with a registered
name are dispatched to the matching `parse`; anything else is flattened by
`simplify_children`.  `HyperLink.parse` fails (`none`) when the element has
no `href` attribute; every constructor stores the simplified child list (see
the `Node` model note about the sequence wrapper being iterated through). -/
def simplify_node : HtmlNode → Option Node
  | .nstring s => some (.text s)
  | .element nm attrs cs =>
      if nm = "h1" ∨ nm = "h2" ∨ nm = "h3" ∨ nm = "h4" ∨ nm = "h5" ∨ nm = "h6" then
        match simplifyKids cs with
        | none => none
        | some rs => some (.heading (headingLevelOfName nm) rs)
      else if nm = "p" then
        match simplifyKids cs with
        | none => none
        | some rs => some (.paragraph rs)
      else if nm = "pre" then some (.pre (allTextList cs))
      else if nm = "ul" ∨ nm = "ol" then
        match simplifyKids cs with
        | none => none
        | some rs => some (.list (nm = "ol") rs)
      else if nm = "li" then
        match simplifyKids cs with
        | none => none
        | some rs => some (.listItem rs)
      else if nm = "table" then
        match simplifyKids cs with
        | none => none
        | some rs => some (.table rs)
      else if nm = "a" then
        match lookupAttr attrs "href" with
        | none => none
        | some href => some (.hyperLink (allTextList cs) href none)
      else
        match simplifyKids cs with
        | none => none
        | some rs => some (if is_block_level rs then .blockSeq rs else .inlineSeq rs)

/-- The loop of `simplify_children`: simplify every child (each child maps to
a truthy node object, so all are kept). -/
def simplifyKids : List HtmlNode → Option (List Node)
  | [] => some []
  | c :: cs =>
      match simplify_node c, simplifyKids cs with
      | some n, some ns => some (n :: ns)
      | _, _ => none
end

/-- `simplify_children` proper: wrap the simplified children in a block or
inline sequence according to `is_block_level`. -/
def simplify_children (cs : List HtmlNode) : Option Node :=
  match simplifyKids cs with
  | none => none
  | some rs => some (if is_block_level rs then .blockSeq rs else .inlineSeq rs)

/-! ## Spec-side list rendering definitions (for comparing against claim C3)

`renderListCeilGo` follows the specification's words: the item is rendered at
`level + ceil(len(bullet)/shift-width)`.  `itemPieces` is an index-based
reformulation of the item loop with the source's floor division, used to
state the amended claim. -/

/-- Modelled from the spec: the `List.render` loop with each item rendered at
`level + ceil(len(bullet)/shift-width)` (ceiling division), otherwise
identical to the source loop. -/
def renderListCeilGo (ordered : Bool) (level : Nat) :
    List Node → List String → String → Option String
  | [], items, delim => some (pyJoin delim items)
  | n :: ns, items, delim =>
      if isListItemNode n then
        let ind := spaces (level * SHIFT_WIDTH)
        let bullet := if ordered then toString (items.length + 1) ++ ". " else "- "
        match renderNode n (level + (bullet.length + SHIFT_WIDTH - 1) / SHIFT_WIDTH) with
        | none => none
        | some t =>
            renderListCeilGo ordered level ns (items ++ [ind ++ bullet ++ pyLstrip t])
              (if containsChar '\n' t then "\n\n" else delim)
      else renderListCeilGo ordered level ns items delim

/-- Modelled from the spec (claim C3's reading): `List.render` with the
ceiling child level. -/
def renderListCeilSpec (ordered : Bool) (cs : List Node) (level : Nat) : Option String :=
  renderListCeilGo ordered level cs [] "\n"

/-- The bullet/text pairs of a list render, indexing the `ListItem` children
by their 0-based position `i` among items: the i-th item's bullet is
`"%i. " % (i+1)` (ordered) or `"- "`, and the item is rendered at
`level + len(bullet) / SHIFT_WIDTH` — floor division, as in the source. -/
def itemPieces (ordered : Bool) (level : Nat) (i : Nat) : List Node → Option (List (String × String))
  | [] => some []
  | n :: ns =>
      if isListItemNode n then
        let bullet := if ordered then toString (i + 1) ++ ". " else "- "
        match renderNode n (level + bullet.length / SHIFT_WIDTH),
              itemPieces ordered level (i + 1) ns with
        | some t, some ps => some ((bullet, t) :: ps)
        | _, _ => none
      else itemPieces ordered level i ns

/-! # Helper lemmas for the list-rendering claims -/

/-- The item loop of `List.render` ignores every child that is not a
`ListItem`: filtering them out first changes nothing. -/
theorem renderListGo_filter (ordered : Bool) (level : Nat) (cs : List Node) :
    ∀ (items : List String) (delim : String),
      renderListGo ordered level cs items delim =
        renderListGo ordered level (cs.filter isListItemNode) items delim := by
  induction cs with
  | nil => intro items delim; rfl
  | cons n ns ih =>
      intro items delim
      by_cases h : isListItemNode n = true
      · simp only [List.filter_cons, h, if_true, renderListGo]
        cases renderNode n (level +
            (if ordered then toString (items.length + 1) ++ ". " else "- ").length / SHIFT_WIDTH) with
        | none => rfl
        | some t => exact ih _ _
      · have hb : isListItemNode n = false := by revert h; cases isListItemNode n <;> simp
        simp only [List.filter_cons, hb, Bool.false_eq_true, if_false, renderListGo]
        exact ih items delim

/-- The accumulator form of the item loop agrees with the index-based
`itemPieces` description (floor division child level, sticky delimiter as a
disjunction over all items). -/
theorem renderListGo_itemPieces (ordered : Bool) (level : Nat) (cs : List Node) :
    ∀ (items : List String) (delim : String),
      renderListGo ordered level cs items delim =
        match itemPieces ordered level items.length cs with
        | none => none
        | some ps =>
            some (pyJoin (if ps.any (fun p => containsChar '\n' p.2) then "\n\n" else delim)
              (items ++ ps.map (fun p =>
                spaces (level * SHIFT_WIDTH) ++ p.1 ++ pyLstrip p.2))) := by
  induction cs with
  | nil => intro items delim; simp [renderListGo, itemPieces]
  | cons n ns ih =>
      intro items delim
      by_cases h : isListItemNode n = true
      · simp only [renderListGo, itemPieces, h, if_true]
        cases hr : renderNode n (level +
            (if ordered then toString (items.length + 1) ++ ". " else "- ").length / SHIFT_WIDTH) with
        | none => rfl
        | some t =>
            dsimp only
            rw [ih]
            simp only [List.length_append, List.length_singleton]
            cases hps : itemPieces ordered level (items.length + 1) ns with
            | none => rfl
            | some ps =>
                dsimp only
                simp only [List.map_cons, List.any_cons, List.append_assoc,
                  List.singleton_append]
                by_cases hnl : containsChar '\n' t = true
                · simp [hnl]
                · simp only [Bool.not_eq_true] at hnl
                  have hd : (if (ps.any fun p => containsChar '\n' p.2) = true then "\n\n"
                      else if containsChar '\n' t = true then "\n\n" else delim) =
                      (if (containsChar '\n' t || ps.any fun p => containsChar '\n' p.2) = true
                      then "\n\n" else delim) := by
                    by_cases hor : (ps.any fun p => containsChar '\n' p.2) = true
                    · rw [if_pos hor, if_pos (show (containsChar '\n' t ||
                        ps.any fun p => containsChar '\n' p.2) = true by
                          rw [hnl, Bool.false_or]; exact hor)]
                    · rw [if_neg hor, if_neg (show ¬ (containsChar '\n' t ||
                        ps.any fun p => containsChar '\n' p.2) = true by
                          rw [hnl, Bool.false_or]; exact hor),
                        if_neg (by simp [hnl])]
                  rw [hd]
      · have hb : isListItemNode n = false := by revert h; cases isListItemNode n <;> simp
        simp only [renderListGo, itemPieces, hb, Bool.false_eq_true, if_false]
        exact ih items delim

/-! # Helper lemmas for the heading claims -/

/-- One step of minimum tracking over a bare level list (the heading case of
`minHeadingStep`). -/
def stepMin (acc : Option Int) (l : Int) : Option Int :=
  match acc with
  | none => some l
  | some m => if l < m then some l else some m

/-- The minimum tracker of `shift_headings`, over the level list. -/
def levMin (xs : List Int) : Option Int := xs.foldl stepMin none

theorem minHeadingStep_eq (acc : Option Int) (n : Node) :
    minHeadingStep acc n =
      match levelOf n with
      | some l => stepMin acc l
      | none => acc := by
  cases n <;> rfl

theorem foldl_minHeadingStep (l : List Node) :
    ∀ acc, l.foldl minHeadingStep acc = (l.filterMap levelOf).foldl stepMin acc := by
  induction l with
  | nil => intro acc; rfl
  | cons n ns ih =>
      intro acc
      rw [List.foldl_cons, minHeadingStep_eq, List.filterMap_cons]
      cases hl : levelOf n
      · dsimp only
        exact ih acc
      · dsimp only
        rw [List.foldl_cons]
        exact ih _

theorem minHeadingLevel_eq (t : Node) :
    minHeadingLevel t = levMin (headingLevels t) :=
  foldl_minHeadingStep (walkTree t) none

theorem stepMin_some (a x : Int) :
    stepMin (some a) x = if x < a then some x else some a := rfl

theorem foldl_stepMin_ne_none (xs : List Int) :
    ∀ a, xs.foldl stepMin (some a) ≠ none := by
  induction xs with
  | nil => intro a h; exact Option.noConfusion h
  | cons x xs ih =>
      intro a
      rw [List.foldl_cons, stepMin_some]
      by_cases h : x < a
      · rw [if_pos h]; exact ih x
      · rw [if_neg h]; exact ih a

theorem levMin_eq_none (xs : List Int) : levMin xs = none ↔ xs = [] := by
  cases xs with
  | nil => simp [levMin]
  | cons x xs =>
      constructor
      · intro h
        exact absurd h (foldl_stepMin_ne_none xs x)
      · intro h; exact List.noConfusion h

theorem foldl_stepMin_spec (xs : List Int) :
    ∀ a m, xs.foldl stepMin (some a) = some m →
      (m = a ∨ m ∈ xs) ∧ m ≤ a ∧ ∀ x ∈ xs, m ≤ x := by
  induction xs with
  | nil =>
      intro a m h
      obtain rfl : a = m := Option.some.inj h
      exact ⟨Or.inl rfl, le_refl _, by intro x hx; cases hx⟩
  | cons x xs ih =>
      intro a m h
      rw [List.foldl_cons, stepMin_some] at h
      by_cases hxa : x < a
      · rw [if_pos hxa] at h
        obtain ⟨hmem, hle, hall⟩ := ih x m h
        refine ⟨?_, ?_, ?_⟩
        · cases hmem with
          | inl hh => exact Or.inr (hh ▸ List.mem_cons_self x xs)
          | inr hh => exact Or.inr (List.mem_cons_of_mem x hh)
        · exact le_of_lt (lt_of_le_of_lt hle hxa)
        · intro y hy
          cases List.mem_cons.mp hy with
          | inl hh => exact hh ▸ hle
          | inr hh => exact hall y hh
      · rw [if_neg hxa] at h
        obtain ⟨hmem, hle, hall⟩ := ih a m h
        refine ⟨?_, hle, ?_⟩
        · cases hmem with
          | inl hh => exact Or.inl hh
          | inr hh => exact Or.inr (List.mem_cons_of_mem x hh)
        · intro y hy
          cases List.mem_cons.mp hy with
          | inl hh => exact hh ▸ le_trans hle (le_of_not_lt hxa)
          | inr hh => exact hall y hh

theorem levMin_spec (xs : List Int) (m : Int) (h : levMin xs = some m) :
    m ∈ xs ∧ ∀ x ∈ xs, m ≤ x := by
  cases xs with
  | nil => exact Option.noConfusion h
  | cons x xs =>
      unfold levMin at h
      rw [List.foldl_cons] at h
      obtain ⟨hmem, hle, hall⟩ := foldl_stepMin_spec xs x m h
      refine ⟨?_, ?_⟩
      · cases hmem with
        | inl hh => exact hh ▸ List.mem_cons_self x xs
        | inr hh => exact List.mem_cons_of_mem x hh
      · intro y hy
        cases List.mem_cons.mp hy with
        | inl hh => exact hh ▸ hle
        | inr hh => exact hall y hh

theorem stepMin_map_sub (c : Int) (acc : Option Int) (x : Int) :
    stepMin (acc.map (· - c)) (x - c) = (stepMin acc x).map (· - c) := by
  cases acc with
  | none => rfl
  | some m =>
      by_cases h : x < m
      · rw [Option.map_some', stepMin_some, stepMin_some, if_pos h,
          if_pos (show x - c < m - c by omega), Option.map_some']
      · rw [Option.map_some', stepMin_some, stepMin_some, if_neg h,
          if_neg (show ¬ x - c < m - c by omega), Option.map_some']

theorem foldl_stepMin_map_sub (c : Int) (xs : List Int) :
    ∀ acc, (xs.map (· - c)).foldl stepMin (acc.map (· - c)) =
      (xs.foldl stepMin acc).map (· - c) := by
  induction xs with
  | nil => intro acc; rfl
  | cons x xs ih =>
      intro acc
      rw [List.map_cons, List.foldl_cons, List.foldl_cons, stepMin_map_sub]
      exact ih _

theorem levMin_map_sub (c : Int) (xs : List Int) :
    levMin (xs.map (· - c)) = (levMin xs).map (· - c) :=
  foldl_stepMin_map_sub c xs none

theorem walkTree_shiftNode (c : Int) (t : Node) :
    walkTree (shiftNode c t) = (walkTree t).map (shiftNode c) := by
  induction t using Node.rec
    (motive_2 := fun cs => walkList (shiftList c cs) = (walkList cs).map (shiftNode c)) with
  | blockSeq cs ih => simp [walkTree, shiftNode, ih]
  | heading l cs ih => simp [walkTree, shiftNode, ih]
  | paragraph cs ih => simp [walkTree, shiftNode, ih]
  | pre t => simp [walkTree, shiftNode]
  | list o cs ih => simp [walkTree, shiftNode, ih]
  | listItem cs ih => simp [walkTree, shiftNode, ih]
  | table cs ih => simp [walkTree, shiftNode, ih]
  | reference n t => simp [walkTree, shiftNode]
  | inlineSeq cs ih => simp [walkTree, shiftNode, ih]
  | hyperLink tx tg r => simp [walkTree, shiftNode]
  | text s => simp [walkTree, shiftNode]
  | nil => simp [walkList, shiftList]
  | cons n ns ihn ihs => simp [walkList, shiftList, ihn, ihs]

theorem levelOf_shiftNode (c : Int) (n : Node) :
    levelOf (shiftNode c n) = (levelOf n).map (· - c) := by
  cases n <;> rfl

theorem headingLevels_shiftNode (c : Int) (t : Node) :
    headingLevels (shiftNode c t) = (headingLevels t).map (· - c) := by
  unfold headingLevels
  rw [walkTree_shiftNode, List.filterMap_map, List.map_filterMap]
  congr 1
  funext n
  exact levelOf_shiftNode c n

theorem minHeadingLevel_shiftNode (c : Int) (t : Node) :
    minHeadingLevel (shiftNode c t) = (minHeadingLevel t).map (· - c) := by
  rw [minHeadingLevel_eq, minHeadingLevel_eq, headingLevels_shiftNode, levMin_map_sub]

/-! # Helper lemmas for the reference-collector claims -/

/-- Every hyperlink in the tree has an unset `reference` (the state of a
freshly mapped tree, before the collector runs). -/
def refsUnset (t : Node) : Bool :=
  (walkTree t).all fun n =>
    match n with
    | .hyperLink _ _ r => r.isNone
    | _ => true

theorem refsUnset_spec {t : Node} (h : refsUnset t = true) {tx tg : String}
    {r : Option Ref} (hm : (.hyperLink tx tg r) ∈ walkTree t) : r = none := by
  have := List.all_eq_true.mp h _ hm
  simpa [Option.isNone_iff_eq_none] using this

/-- The collector only appends to `by_target` and `by_reference`. -/
theorem frNode_state_grows (t : Node) :
    ∀ s : RefState, s.byTarget <+: (frNode s t).1.byTarget ∧
      s.byReference <+: (frNode s t).1.byReference := by
  induction t using Node.rec
    (motive_2 := fun cs => ∀ s : RefState, s.byTarget <+: (frList s cs).1.byTarget ∧
      s.byReference <+: (frList s cs).1.byReference) with
  | hyperLink tx tg r =>
      intro s
      simp only [frNode]
      by_cases h1 : unquote tg ∈ s.byTarget
      · rw [if_pos h1]; exact ⟨List.prefix_refl _, List.prefix_refl _⟩
      · rw [if_neg h1]
        by_cases h2 : strContains (unquote tg) "://" = false ∨ unquote tg = tx
        · rw [if_pos h2]; exact ⟨List.prefix_refl _, List.prefix_refl _⟩
        · rw [if_neg h2]
          exact ⟨List.prefix_append _ _, List.prefix_append _ _⟩
  | blockSeq cs ih => exact ih
  | heading l cs ih => exact ih
  | paragraph cs ih => exact ih
  | pre t => intro s; exact ⟨List.prefix_refl _, List.prefix_refl _⟩
  | list o cs ih => exact ih
  | listItem cs ih => exact ih
  | table cs ih => exact ih
  | reference n t => intro s; exact ⟨List.prefix_refl _, List.prefix_refl _⟩
  | inlineSeq cs ih => exact ih
  | text str => intro s; exact ⟨List.prefix_refl _, List.prefix_refl _⟩
  | nil => exact ⟨List.prefix_refl _, List.prefix_refl _⟩
  | cons n ns ihn ihs =>
      rename_i s
      exact ⟨(ihn s).1.trans ((ihs (frNode s n).1).1),
             (ihn s).2.trans ((ihs (frNode s n).1).2)⟩

theorem frList_state_grows (cs : List Node) :
    ∀ s : RefState, s.byTarget <+: (frList s cs).1.byTarget ∧
      s.byReference <+: (frList s cs).1.byReference := by
  induction cs with
  | nil => intro s; exact ⟨List.prefix_refl _, List.prefix_refl _⟩
  | cons n ns ih =>
      intro s
      exact ⟨(frNode_state_grows n s).1.trans ((ih (frNode s n).1).1),
             (frNode_state_grows n s).2.trans ((ih (frNode s n).1).2)⟩

/-- The `by_target` keys are exactly the targets of the `by_reference`
entries (they are only ever extended together). -/
def stateOk (s : RefState) : Prop := s.byTarget = s.byReference.map Ref.target

theorem frNode_stateOk (t : Node) :
    ∀ s : RefState, stateOk s → stateOk (frNode s t).1 := by
  induction t using Node.rec
    (motive_2 := fun cs => ∀ s : RefState, stateOk s → stateOk (frList s cs).1) with
  | hyperLink tx tg r =>
      intro s hok
      simp only [frNode]
      by_cases h1 : unquote tg ∈ s.byTarget
      · rw [if_pos h1]; exact hok
      · rw [if_neg h1]
        by_cases h2 : strContains (unquote tg) "://" = false ∨ unquote tg = tx
        · rw [if_pos h2]; exact hok
        · rw [if_neg h2]
          show s.byTarget ++ [unquote tg] = _
          rw [List.map_append, hok]
          rfl
  | blockSeq cs ih => exact ih
  | heading l cs ih => exact ih
  | paragraph cs ih => exact ih
  | pre t => intro s hok; exact hok
  | list o cs ih => exact ih
  | listItem cs ih => exact ih
  | table cs ih => exact ih
  | reference n t => intro s hok; exact hok
  | inlineSeq cs ih => exact ih
  | text str => intro s hok; exact hok
  | nil => rename_i s hok; exact hok
  | cons n ns ihn ihs =>
      rename_i s hok
      exact ihs (frNode s n).1 (ihn s hok)

/-- Deduplication keeps the `by_target` keys distinct. -/
theorem frNode_nodup (t : Node) :
    ∀ s : RefState, s.byTarget.Nodup → (frNode s t).1.byTarget.Nodup := by
  induction t using Node.rec
    (motive_2 := fun cs => ∀ s : RefState, s.byTarget.Nodup → (frList s cs).1.byTarget.Nodup) with
  | hyperLink tx tg r =>
      intro s hnd
      simp only [frNode]
      by_cases h1 : unquote tg ∈ s.byTarget
      · rw [if_pos h1]; exact hnd
      · rw [if_neg h1]
        by_cases h2 : strContains (unquote tg) "://" = false ∨ unquote tg = tx
        · rw [if_pos h2]; exact hnd
        · rw [if_neg h2]
          show (s.byTarget ++ [unquote tg]).Nodup
          rw [List.nodup_append]
          refine ⟨hnd, List.nodup_singleton _, ?_⟩
          intro a ha hb
          rw [List.mem_singleton] at hb
          exact h1 (hb ▸ ha)
  | blockSeq cs ih => exact ih
  | heading l cs ih => exact ih
  | paragraph cs ih => exact ih
  | pre t => intro s hnd; exact hnd
  | list o cs ih => exact ih
  | listItem cs ih => exact ih
  | table cs ih => exact ih
  | reference n t => intro s hnd; exact hnd
  | inlineSeq cs ih => exact ih
  | text str => intro s hnd; exact hnd
  | nil => rename_i s hnd; exact hnd
  | cons n ns ihn ihs =>
      rename_i s hnd
      exact ihs (frNode s n).1 (ihn s hnd)

/-- A hyperlink that the collector skips (relative target or literal URL) is
passed through untouched: an excluded link found in the output was already in
the input. -/
theorem frNode_excluded_mem (t : Node) :
    ∀ (s : RefState) (tx tg : String) (r : Option Ref),
      (.hyperLink tx tg r) ∈ walkTree (frNode s t).2 →
      (strContains (unquote tg) "://" = false ∨ unquote tg = tx) →
      (.hyperLink tx tg r) ∈ walkTree t := by
  induction t using Node.rec
    (motive_2 := fun cs => ∀ (s : RefState) (tx tg : String) (r : Option Ref),
      (.hyperLink tx tg r) ∈ walkList (frList s cs).2 →
      (strContains (unquote tg) "://" = false ∨ unquote tg = tx) →
      (.hyperLink tx tg r) ∈ walkList cs) with
  | hyperLink tx' tg' r' =>
      intro s tx tg r hm hex
      simp only [frNode] at hm
      by_cases h1 : unquote tg' ∈ s.byTarget
      · rw [if_pos h1] at hm; exact hm
      · rw [if_neg h1] at hm
        by_cases h2 : strContains (unquote tg') "://" = false ∨ unquote tg' = tx'
        · rw [if_pos h2] at hm; exact hm
        · rw [if_neg h2] at hm
          simp only [walkTree, List.mem_singleton] at hm
          injection hm with htx htg hr
          subst htx; subst htg
          exact absurd hex h2
  | blockSeq cs ih =>
      intro s tx tg r hm hex
      rcases List.mem_cons.mp hm with h | h
      · exact Node.noConfusion h
      · exact List.mem_cons_of_mem _ (ih s tx tg r h hex)
  | heading l cs ih =>
      intro s tx tg r hm hex
      rcases List.mem_cons.mp hm with h | h
      · exact Node.noConfusion h
      · exact List.mem_cons_of_mem _ (ih s tx tg r h hex)
  | paragraph cs ih =>
      intro s tx tg r hm hex
      rcases List.mem_cons.mp hm with h | h
      · exact Node.noConfusion h
      · exact List.mem_cons_of_mem _ (ih s tx tg r h hex)
  | pre t => intro s tx tg r hm hex; exact hm
  | list o cs ih =>
      intro s tx tg r hm hex
      rcases List.mem_cons.mp hm with h | h
      · exact Node.noConfusion h
      · exact List.mem_cons_of_mem _ (ih s tx tg r h hex)
  | listItem cs ih =>
      intro s tx tg r hm hex
      rcases List.mem_cons.mp hm with h | h
      · exact Node.noConfusion h
      · exact List.mem_cons_of_mem _ (ih s tx tg r h hex)
  | table cs ih =>
      intro s tx tg r hm hex
      rcases List.mem_cons.mp hm with h | h
      · exact Node.noConfusion h
      · exact List.mem_cons_of_mem _ (ih s tx tg r h hex)
  | reference n t => intro s tx tg r hm hex; exact hm
  | inlineSeq cs ih =>
      intro s tx tg r hm hex
      rcases List.mem_cons.mp hm with h | h
      · exact Node.noConfusion h
      · exact List.mem_cons_of_mem _ (ih s tx tg r h hex)
  | text str => intro s tx tg r hm hex; exact hm
  | nil => rename_i hm hex; exact absurd hm (List.not_mem_nil _)
  | cons n ns ihn ihs =>
      rename_i s tx tg r hm hex
      rcases List.mem_append.mp hm with h | h
      · exact List.mem_append_left _ (ihn s tx tg r h hex)
      · exact List.mem_append_right _ (ihs (frNode s n).1 tx tg r h hex)

/-- A hyperlink carrying an assigned reference in the output either carried
it already in the input, or the entry is recorded in the final `by_reference`
list and its target is the link's decoded target. -/
theorem frNode_assigned_mem (t : Node) :
    ∀ (s : RefState) (tx tg : String) (ρ : Ref),
      (.hyperLink tx tg (some ρ)) ∈ walkTree (frNode s t).2 →
      ((.hyperLink tx tg (some ρ)) ∈ walkTree t ∨
        (ρ ∈ (frNode s t).1.byReference ∧ ρ.target = unquote tg)) := by
  induction t using Node.rec
    (motive_2 := fun cs => ∀ (s : RefState) (tx tg : String) (ρ : Ref),
      (.hyperLink tx tg (some ρ)) ∈ walkList (frList s cs).2 →
      ((.hyperLink tx tg (some ρ)) ∈ walkList cs ∨
        (ρ ∈ (frList s cs).1.byReference ∧ ρ.target = unquote tg))) with
  | hyperLink tx' tg' r' =>
      intro s tx tg ρ hm
      simp only [frNode] at hm ⊢
      by_cases h1 : unquote tg' ∈ s.byTarget
      · rw [if_pos h1] at hm ⊢; exact Or.inl hm
      · rw [if_neg h1] at hm ⊢
        by_cases h2 : strContains (unquote tg') "://" = false ∨ unquote tg' = tx'
        · rw [if_pos h2] at hm ⊢; exact Or.inl hm
        · rw [if_neg h2] at hm ⊢
          simp only [walkTree, List.mem_singleton] at hm
          injection hm with htx htg hr
          subst htx; subst htg
          injection hr with hρ
          refine Or.inr ⟨?_, ?_⟩
          · exact List.mem_append_right _ (hρ ▸ List.mem_singleton.mpr rfl)
          · rw [hρ]
  | blockSeq cs ih =>
      intro s tx tg ρ hm
      rcases List.mem_cons.mp hm with h | h
      · exact Node.noConfusion h
      · rcases ih s tx tg ρ h with h' | h'
        · exact Or.inl (List.mem_cons_of_mem _ h')
        · exact Or.inr h'
  | heading l cs ih =>
      intro s tx tg ρ hm
      rcases List.mem_cons.mp hm with h | h
      · exact Node.noConfusion h
      · rcases ih s tx tg ρ h with h' | h'
        · exact Or.inl (List.mem_cons_of_mem _ h')
        · exact Or.inr h'
  | paragraph cs ih =>
      intro s tx tg ρ hm
      rcases List.mem_cons.mp hm with h | h
      · exact Node.noConfusion h
      · rcases ih s tx tg ρ h with h' | h'
        · exact Or.inl (List.mem_cons_of_mem _ h')
        · exact Or.inr h'
  | pre t => intro s tx tg ρ hm; exact Or.inl hm
  | list o cs ih =>
      intro s tx tg ρ hm
      rcases List.mem_cons.mp hm with h | h
      · exact Node.noConfusion h
      · rcases ih s tx tg ρ h with h' | h'
        · exact Or.inl (List.mem_cons_of_mem _ h')
        · exact Or.inr h'
  | listItem cs ih =>
      intro s tx tg ρ hm
      rcases List.mem_cons.mp hm with h | h
      · exact Node.noConfusion h
      · rcases ih s tx tg ρ h with h' | h'
        · exact Or.inl (List.mem_cons_of_mem _ h')
        · exact Or.inr h'
  | table cs ih =>
      intro s tx tg ρ hm
      rcases List.mem_cons.mp hm with h | h
      · exact Node.noConfusion h
      · rcases ih s tx tg ρ h with h' | h'
        · exact Or.inl (List.mem_cons_of_mem _ h')
        · exact Or.inr h'
  | reference n t => intro s tx tg ρ hm; exact Or.inl hm
  | inlineSeq cs ih =>
      intro s tx tg ρ hm
      rcases List.mem_cons.mp hm with h | h
      · exact Node.noConfusion h
      · rcases ih s tx tg ρ h with h' | h'
        · exact Or.inl (List.mem_cons_of_mem _ h')
        · exact Or.inr h'
  | text str => intro s tx tg ρ hm; exact Or.inl hm
  | nil => rename_i hm; exact absurd hm (List.not_mem_nil _)
  | cons n ns ihn ihs =>
      rename_i s tx tg ρ hm
      rcases List.mem_append.mp hm with h | h
      · rcases ihn s tx tg ρ h with h' | h'
        · exact Or.inl (List.mem_append_left _ h')
        · exact Or.inr ⟨(frList_state_grows ns (frNode s n).1).2.subset h'.1, h'.2⟩
      · rcases ihs (frNode s n).1 tx tg ρ h with h' | h'
        · exact Or.inl (List.mem_append_right _ h')
        · exact Or.inr h'

/-- After the collector runs, the decoded target of every qualifying
hyperlink of the input tree is recorded in `by_target`. -/
theorem frNode_qualifying_seen (t : Node) :
    ∀ (s : RefState) (tx tg : String) (r : Option Ref),
      (.hyperLink tx tg r) ∈ walkTree t →
      strContains (unquote tg) "://" = true →
      unquote tg ≠ tx →
      unquote tg ∈ (frNode s t).1.byTarget := by
  induction t using Node.rec
    (motive_2 := fun cs => ∀ (s : RefState) (tx tg : String) (r : Option Ref),
      (.hyperLink tx tg r) ∈ walkList cs →
      strContains (unquote tg) "://" = true →
      unquote tg ≠ tx →
      unquote tg ∈ (frList s cs).1.byTarget) with
  | hyperLink tx' tg' r' =>
      intro s tx tg r hm habs hne
      simp only [walkTree, List.mem_singleton] at hm
      injection hm with htx htg hr
      subst htx; subst htg
      simp only [frNode]
      by_cases h1 : unquote tg ∈ s.byTarget
      · rw [if_pos h1]; exact h1
      · rw [if_neg h1]
        by_cases h2 : strContains (unquote tg) "://" = false ∨ unquote tg = tx
        · rcases h2 with h2 | h2
          · rw [habs] at h2; exact absurd h2 (by simp)
          · exact absurd h2 hne
        · rw [if_neg h2]
          exact List.mem_append_right _ (List.mem_singleton.mpr rfl)
  | blockSeq cs ih =>
      intro s tx tg r hm habs hne
      rcases List.mem_cons.mp hm with h | h
      · exact Node.noConfusion h
      · exact ih s tx tg r h habs hne
  | heading l cs ih =>
      intro s tx tg r hm habs hne
      rcases List.mem_cons.mp hm with h | h
      · exact Node.noConfusion h
      · exact ih s tx tg r h habs hne
  | paragraph cs ih =>
      intro s tx tg r hm habs hne
      rcases List.mem_cons.mp hm with h | h
      · exact Node.noConfusion h
      · exact ih s tx tg r h habs hne
  | pre t =>
      intro s tx tg r hm habs hne
      simp only [walkTree, List.mem_singleton] at hm
      exact Node.noConfusion hm
  | list o cs ih =>
      intro s tx tg r hm habs hne
      rcases List.mem_cons.mp hm with h | h
      · exact Node.noConfusion h
      · exact ih s tx tg r h habs hne
  | listItem cs ih =>
      intro s tx tg r hm habs hne
      rcases List.mem_cons.mp hm with h | h
      · exact Node.noConfusion h
      · exact ih s tx tg r h habs hne
  | table cs ih =>
      intro s tx tg r hm habs hne
      rcases List.mem_cons.mp hm with h | h
      · exact Node.noConfusion h
      · exact ih s tx tg r h habs hne
  | reference n t =>
      intro s tx tg r hm habs hne
      simp only [walkTree, List.mem_singleton] at hm
      exact Node.noConfusion hm
  | inlineSeq cs ih =>
      intro s tx tg r hm habs hne
      rcases List.mem_cons.mp hm with h | h
      · exact Node.noConfusion h
      · exact ih s tx tg r h habs hne
  | text str =>
      intro s tx tg r hm habs hne
      simp only [walkTree, List.mem_singleton] at hm
      exact Node.noConfusion hm
  | nil => rename_i hm habs hne; exact absurd hm (List.not_mem_nil _)
  | cons n ns ihn ihs =>
      rename_i s tx tg r hm habs hne
      rcases List.mem_append.mp hm with h | h
      · exact (frList_state_grows ns (frNode s n).1).1.subset (ihn s tx tg r h habs hne)
      · exact ihs (frNode s n).1 tx tg r h habs hne

/-! # Helper lemmas for the wrap-width claim -/

/-- Total character count of a chunk list. -/
def contentLen (ls : List String) : Nat := (ls.map String.length).sum

theorem toList_asString (l : List Char) : l.asString.toList = l := rfl

theorem asString_toList (s : String) : s.toList.asString = s := rfl

theorem toList_append (a b : String) : (a ++ b).toList = a.toList ++ b.toList := rfl

theorem length_toList (s : String) : s.length = s.toList.length := rfl

theorem spaces_length (n : Nat) : (spaces n).length = n := by
  show (List.replicate n ' ').length = n
  exact List.length_replicate n ' '

theorem pyJoin_nil_length (ls : List String) : (pyJoin "" ls).length = contentLen ls := by
  induction ls with
  | nil => rfl
  | cons x xs ih =>
      cases xs with
      | nil => simp [pyJoin, contentLen]
      | cons y ys =>
          show (x ++ "" ++ pyJoin "" (y :: ys)).length = _
          rw [String.length_append, String.length_append, ih]
          simp [contentLen]

/-- No newline occurs in the string. -/
def noNl (s : String) : Bool := s.toList.all (fun c => !(c = '\n'))

theorem noNl_append (a b : String) : noNl (a ++ b) = (noNl a && noNl b) := by
  unfold noNl
  rw [toList_append, List.all_append]

theorem noNl_spaces (n : Nat) : noNl (spaces n) = true := by
  unfold noNl spaces
  rw [toList_asString, List.all_eq_true]
  intro c hc
  rw [List.eq_of_mem_replicate hc]
  decide

theorem noNl_pyJoin_nil (ls : List String) (h : ∀ l ∈ ls, noNl l = true) :
    noNl (pyJoin "" ls) = true := by
  induction ls with
  | nil => decide
  | cons x xs ih =>
      cases xs with
      | nil => exact h x (List.mem_singleton.mpr rfl)
      | cons y ys =>
          show noNl (x ++ "" ++ pyJoin "" (y :: ys)) = true
          rw [noNl_append, noNl_append]
          have hx := h x (List.mem_cons_self _ _)
          have hrest := ih (fun l hl => h l (List.mem_cons_of_mem _ hl))
          rw [hx, hrest]
          rfl

theorem noNl_munge (s : String) : noNl (munge s) = true := by
  unfold noNl munge
  rw [toList_asString, List.all_eq_true]
  intro c hc
  obtain ⟨c0, hc0, rfl⟩ := List.mem_map.mp hc
  by_cases hsp : pySpace c0 = true
  · rw [if_pos hsp]; decide
  · rw [if_neg hsp]
    simp only [Bool.not_eq_true', decide_eq_false_iff_not]
    intro hnl
    subst hnl
    exact hsp (by decide)

theorem runsGo_chars (l : List Char) :
    ∀ (cls : Bool) (acc : List Char) (ch : String), ch ∈ runsGo cls acc l →
      ∀ c ∈ ch.toList, c ∈ acc ∨ c ∈ l := by
  induction l with
  | nil =>
      intro cls acc ch hch c hc
      rw [runsGo, List.mem_singleton] at hch
      subst hch
      rw [toList_asString] at hc
      exact Or.inl (List.mem_reverse.mp hc)
  | cons d ds ih =>
      intro cls acc ch hch c hc
      rw [runsGo] at hch
      by_cases hcl : pySpace d = cls
      · rw [if_pos hcl] at hch
        rcases ih cls (d :: acc) ch hch c hc with h | h
        · rcases List.mem_cons.mp h with rfl | h
          · exact Or.inr (List.mem_cons_self _ _)
          · exact Or.inl h
        · exact Or.inr (List.mem_cons_of_mem _ h)
      · rw [if_neg hcl] at hch
        rcases List.mem_cons.mp hch with rfl | hch
        · rw [toList_asString] at hc
          exact Or.inl (List.mem_reverse.mp hc)
        · rcases ih (pySpace d) [d] ch hch c hc with h | h
          · rw [List.mem_singleton] at h
            exact Or.inr (h ▸ List.mem_cons_self _ _)
          · exact Or.inr (List.mem_cons_of_mem _ h)

theorem splitChunks_noNl (s : String) (hs : noNl s = true) :
    ∀ ch ∈ splitChunks s, noNl ch = true := by
  intro ch hch
  unfold noNl
  rw [List.all_eq_true]
  intro c hc
  unfold splitChunks at hch
  unfold noNl at hs
  rw [List.all_eq_true] at hs
  cases hl : s.toList with
  | nil => rw [hl] at hch; exact absurd hch (List.not_mem_nil _)
  | cons c0 cs =>
      rw [hl] at hch
      rcases runsGo_chars cs (pySpace c0) [c0] ch hch c hc with h | h
      · rw [List.mem_singleton] at h
        exact hs c (by rw [hl]; exact h ▸ List.mem_cons_self _ _)
      · exact hs c (by rw [hl]; exact List.mem_cons_of_mem _ h)

theorem noNl_take (d : String) (n : Nat) (h : noNl d = true) :
    noNl (d.toList.take n).asString = true := by
  unfold noNl at h ⊢
  rw [toList_asString, List.all_eq_true]
  rw [List.all_eq_true] at h
  intro c hc
  exact h c ((List.take_sublist n d.toList).subset hc)

theorem noNl_drop (d : String) (n : Nat) (h : noNl d = true) :
    noNl (d.toList.drop n).asString = true := by
  unfold noNl at h ⊢
  rw [toList_asString, List.all_eq_true]
  rw [List.all_eq_true] at h
  intro c hc
  exact h c (List.drop_subset n d.toList hc)

theorem splitCharAux_sepFree (sep : Char) (a : List Char) (ha : ∀ c ∈ a, ¬ c = sep) :
    ∀ (cur r : List Char), splitCharAux sep cur (a ++ r) = splitCharAux sep (a.reverse ++ cur) r := by
  induction a with
  | nil => intro cur r; rfl
  | cons c cs ih =>
      intro cur r
      rw [List.cons_append, splitCharAux, if_neg (ha c (List.mem_cons_self _ _))]
      rw [ih (fun x hx => ha x (List.mem_cons_of_mem _ hx)) (c :: cur) r]
      rw [List.reverse_cons, List.append_assoc, List.singleton_append]

theorem linesOf_pyJoin (ls : List String) :
    (∀ l ∈ ls, noNl l = true) → ls ≠ [] → linesOf (pyJoin "\n" ls) = ls := by
  induction ls with
  | nil => intro _ hne; exact absurd rfl hne
  | cons x xs ih =>
      intro h hne
      have hx : ∀ c ∈ x.toList, ¬ c = '\n' := by
        have := h x (List.mem_cons_self _ _)
        unfold noNl at this
        rw [List.all_eq_true] at this
        intro c hc
        simpa using this c hc
      cases xs with
      | nil =>
          show (splitCharAux '\n' [] x.toList).map List.asString = [x]
          have := splitCharAux_sepFree '\n' x.toList hx [] []
          rw [List.append_nil] at this
          rw [this, splitCharAux, List.append_nil, List.reverse_reverse]
          rw [List.map_singleton, asString_toList]
      | cons y ys =>
          show (splitCharAux '\n' [] (pyJoin "\n" (x :: y :: ys)).toList).map List.asString
            = x :: y :: ys
          have hsplit : (pyJoin "\n" (x :: y :: ys)).toList
              = x.toList ++ ('\n' :: (pyJoin "\n" (y :: ys)).toList) := by
            show (x ++ "\n" ++ pyJoin "\n" (y :: ys)).toList = _
            rw [toList_append, toList_append, List.append_assoc]
            rfl
          rw [hsplit, splitCharAux_sepFree '\n' x.toList hx [] _, List.append_nil]
          rw [splitCharAux, if_pos rfl, List.reverse_reverse]
          rw [List.map_cons, asString_toList]
          have := ih (fun l hl => h l (List.mem_cons_of_mem _ hl)) (List.cons_ne_nil y ys)
          unfold linesOf splitChar at this
          rw [this]

theorem greedy_len (we : Int) (cs : List String) :
    ∀ curLen : Nat, (greedy we curLen cs).2.1 = curLen + contentLen (greedy we curLen cs).1 := by
  induction cs with
  | nil => intro curLen; simp [greedy, contentLen]
  | cons c cs ih =>
      intro curLen
      simp only [greedy]
      by_cases h : ((curLen : Int) + c.length ≤ we)
      · rw [if_pos h]
        dsimp only
        rw [ih (curLen + c.length)]
        simp only [contentLen, List.map_cons, List.sum_cons]
        omega
      · rw [if_neg h]
        simp [contentLen]

theorem greedy_le (we : Int) (cs : List String) :
    ∀ curLen : Nat, (curLen : Int) ≤ we → ((greedy we curLen cs).2.1 : Int) ≤ we := by
  induction cs with
  | nil => intro curLen h; exact h
  | cons c cs ih =>
      intro curLen h
      simp only [greedy]
      by_cases hc : ((curLen : Int) + c.length ≤ we)
      · rw [if_pos hc]
        dsimp only
        exact ih (curLen + c.length) (by push_cast; omega)
      · rw [if_neg hc]
        exact h

theorem greedy_mem (we : Int) (cs : List String) :
    ∀ curLen : Nat,
      (∀ ch ∈ (greedy we curLen cs).1, ch ∈ cs) ∧
      (∀ ch ∈ (greedy we curLen cs).2.2, ch ∈ cs) := by
  induction cs with
  | nil =>
      intro curLen
      exact ⟨fun ch hch => absurd hch (List.not_mem_nil _),
             fun ch hch => absurd hch (List.not_mem_nil _)⟩
  | cons c cs ih =>
      intro curLen
      simp only [greedy]
      by_cases h : ((curLen : Int) + c.length ≤ we)
      · rw [if_pos h]
        dsimp only
        constructor
        · intro ch hch
          rcases List.mem_cons.mp hch with rfl | hch
          · exact List.mem_cons_self _ _
          · exact List.mem_cons_of_mem _ ((ih (curLen + c.length)).1 ch hch)
        · intro ch hch
          exact List.mem_cons_of_mem _ ((ih (curLen + c.length)).2 ch hch)
      · rw [if_neg h]
        exact ⟨fun ch hch => absurd hch (List.not_mem_nil _), fun ch hch => hch⟩

theorem mem_dropTrailing (cur : List String) :
    ∀ ch ∈ dropTrailingWsChunk cur, ch ∈ cur := by
  intro ch hch
  unfold dropTrailingWsChunk at hch
  cases h : cur.getLast? with
  | none => rw [h] at hch; exact hch
  | some last =>
      rw [h] at hch
      dsimp only at hch
      by_cases hw : chunkIsWs last = true
      · rw [if_pos hw] at hch
        exact (List.dropLast_sublist cur).subset hch
      · rw [if_neg hw] at hch
        exact hch

theorem contentLen_dropTrailing (cur : List String) :
    contentLen (dropTrailingWsChunk cur) ≤ contentLen cur := by
  unfold dropTrailingWsChunk
  cases h : cur.getLast? with
  | none => exact le_refl _
  | some last =>
      dsimp only
      by_cases hw : chunkIsWs last = true
      · rw [if_pos hw]
        have hne : cur ≠ [] := by
          intro hnil
          rw [hnil] at h
          exact Option.noConfusion h
        conv_rhs => rw [← List.dropLast_append_getLast hne]
        unfold contentLen
        rw [List.map_append, List.sum_append]
        exact Nat.le_add_right _ _
      · rw [if_neg hw]

theorem lineBuild_content_le (we : Int) (hwe : 1 ≤ we) (chunks : List String) :
    (contentLen (lineBuild we chunks).1 : Int) ≤ we := by
  unfold lineBuild
  dsimp only
  have hg := greedy_len we chunks 0
  have hgle := greedy_le we chunks 0 (by omega)
  have hgc : (contentLen (greedy we 0 chunks).1 : Int) ≤ we := by
    rw [Nat.zero_add] at hg
    rw [← hg]
    exact hgle
  cases hrest : (greedy we 0 chunks).2.2 with
  | nil =>
      dsimp only
      calc (contentLen (dropTrailingWsChunk (greedy we 0 chunks).1) : Int)
          ≤ (contentLen (greedy we 0 chunks).1 : Int) := by
            exact_mod_cast contentLen_dropTrailing _
        _ ≤ we := hgc
  | cons d ds =>
      dsimp only
      by_cases hlong : ((d.length : Int) > we)
      · rw [if_pos hlong]
        dsimp only
        unfold handleLongWord
        dsimp only
        rw [if_neg (by omega : ¬ we < 1)]
        have h1 : (contentLen ((greedy we 0 chunks).1 ++
            [((d.toList.take (we - (greedy we 0 chunks).2.1).toNat).asString)]) : Int)
            ≤ we := by
          unfold contentLen
          rw [List.map_append, List.sum_append]
          push_cast
          have htake : (((d.toList.take (we - (greedy we 0 chunks).2.1).toNat).asString).length : Int)
              ≤ we - (greedy we 0 chunks).2.1 := by
            rw [length_toList, toList_asString, List.length_take]
            have hnn : (0 : Int) ≤ we - (greedy we 0 chunks).2.1 := by omega
            calc ((min (we - (greedy we 0 chunks).2.1).toNat d.toList.length : Nat) : Int)
                ≤ ((we - (greedy we 0 chunks).2.1).toNat : Int) := by
                  exact_mod_cast Nat.min_le_left _ _
              _ = we - (greedy we 0 chunks).2.1 := Int.toNat_of_nonneg hnn
          have hcur : ((contentLen (greedy we 0 chunks).1 : Nat) : Int)
              = (greedy we 0 chunks).2.1 := by
            rw [Nat.zero_add] at hg
            exact_mod_cast hg.symm
          simp only [contentLen] at hcur
          simp only [List.map_cons, List.map_nil, List.sum_cons, List.sum_nil]
          push_cast at hcur htake ⊢
          omega
        calc (contentLen (dropTrailingWsChunk ((greedy we 0 chunks).1 ++
              [((d.toList.take (we - (greedy we 0 chunks).2.1).toNat).asString)])) : Int)
            ≤ _ := by exact_mod_cast contentLen_dropTrailing _
          _ ≤ we := h1
      · rw [if_neg hlong]
        dsimp only
        calc (contentLen (dropTrailingWsChunk (greedy we 0 chunks).1) : Int)
            ≤ (contentLen (greedy we 0 chunks).1 : Int) := by
              exact_mod_cast contentLen_dropTrailing _
          _ ≤ we := hgc

theorem lineBuild_noNl (we : Int) (chunks : List String)
    (h : ∀ ch ∈ chunks, noNl ch = true) :
    (∀ ch ∈ (lineBuild we chunks).1, noNl ch = true) ∧
    (∀ ch ∈ (lineBuild we chunks).2, noNl ch = true) := by
  unfold lineBuild
  dsimp only
  have hgm := greedy_mem we chunks 0
  cases hrest : (greedy we 0 chunks).2.2 with
  | nil =>
      dsimp only
      refine ⟨?_, ?_⟩
      · intro ch hch
        exact h ch (hgm.1 ch (mem_dropTrailing _ ch hch))
      · intro ch hch
        exact absurd hch (List.not_mem_nil _)
  | cons d ds =>
      have hdm : d ∈ chunks := hgm.2 d (by rw [hrest]; exact List.mem_cons_self _ _)
      have hdsm : ∀ ch ∈ ds, ch ∈ chunks := fun ch hch =>
        hgm.2 ch (by rw [hrest]; exact List.mem_cons_of_mem _ hch)
      dsimp only
      by_cases hlong : ((d.length : Int) > we)
      · rw [if_pos hlong]
        dsimp only
        unfold handleLongWord
        dsimp only
        refine ⟨?_, ?_⟩
        · intro ch hch
          have := mem_dropTrailing _ ch hch
          rcases List.mem_append.mp this with h1 | h1
          · exact h ch (hgm.1 ch h1)
          · rw [List.mem_singleton] at h1
            subst h1
            exact noNl_take d _ (h d hdm)
        · intro ch hch
          rcases List.mem_cons.mp hch with rfl | h1
          · exact noNl_drop d _ (h d hdm)
          · exact h ch (hdsm ch h1)
      · rw [if_neg hlong]
        dsimp only
        refine ⟨?_, ?_⟩
        · intro ch hch
          exact h ch (hgm.1 ch (mem_dropTrailing _ ch hch))
        · intro ch hch
          rcases List.mem_cons.mp hch with rfl | h1
          · exact h ch hdm
          · exact h ch (hdsm ch h1)

theorem line_piece_bound (width : Int) (indent : String)
    (hind : (indent.length : Int) + 1 ≤ width) (cks : List String) :
    ((indent ++ pyJoin "" (lineBuild (width - indent.length) cks).1).length : Int) ≤ width := by
  rw [String.length_append, pyJoin_nil_length]
  have := lineBuild_content_le (width - indent.length) (by omega) cks
  push_cast
  omega

theorem wrapGo_bound (width : Int) (ii si : String)
    (hii : (ii.length : Int) + 1 ≤ width) (hsi : (si.length : Int) + 1 ≤ width) :
    ∀ (fuel : Nat) (chunks : List String) (emitted : Bool) (ls : List String),
      wrapGo width ii si fuel chunks emitted = some ls →
      ∀ l ∈ ls, (l.length : Int) ≤ width := by
  intro fuel
  induction fuel with
  | zero =>
      intro chunks emitted ls h
      cases chunks with
      | nil =>
          rw [wrapGo] at h
          injection h with h'
          subst h'
          intro l hl
          exact absurd hl (List.not_mem_nil _)
      | cons c0 rest0 =>
          rw [wrapGo] at h
          exact Option.noConfusion h
  | succ fuel ih =>
      intro chunks emitted ls h
      cases chunks with
      | nil =>
          rw [wrapGo] at h
          injection h with h'
          subst h'
          intro l hl
          exact absurd hl (List.not_mem_nil _)
      | cons c0 rest0 =>
          simp only [wrapGo] at h
          have hind : (((if emitted = true then si else ii).length : Int) + 1 ≤ width) := by
            cases emitted
            · simpa using hii
            · simpa using hsi
          by_cases hdrop : (emitted && chunkIsWs c0) = true
          · rw [if_pos hdrop] at h
            cases rest0 with
            | nil =>
                injection h with h'
                subst h'
                intro l hl
                exact absurd hl (List.not_mem_nil _)
            | cons c1 rest1 =>
                dsimp only at h
                by_cases hemp : (lineBuild (width - (if emitted = true then si else ii).length)
                    (c1 :: rest1)).1.isEmpty = true
                · rw [if_pos hemp] at h
                  exact ih _ _ _ h
                · rw [if_neg hemp] at h
                  cases hrec : wrapGo width ii si fuel
                      (lineBuild (width - (if emitted = true then si else ii).length)
                        (c1 :: rest1)).2 true with
                  | none => rw [hrec] at h; exact Option.noConfusion h
                  | some ls' =>
                      rw [hrec] at h
                      dsimp only at h
                      injection h with h'
                      subst h'
                      intro l hl
                      rcases List.mem_cons.mp hl with rfl | hl'
                      · exact line_piece_bound width _ hind _
                      · exact ih _ _ _ hrec l hl'
          · rw [if_neg hdrop] at h
            dsimp only at h
            by_cases hemp : (lineBuild (width - (if emitted = true then si else ii).length)
                (c0 :: rest0)).1.isEmpty = true
            · rw [if_pos hemp] at h
              exact ih _ _ _ h
            · rw [if_neg hemp] at h
              cases hrec : wrapGo width ii si fuel
                  (lineBuild (width - (if emitted = true then si else ii).length)
                    (c0 :: rest0)).2 true with
              | none => rw [hrec] at h; exact Option.noConfusion h
              | some ls' =>
                  rw [hrec] at h
                  dsimp only at h
                  injection h with h'
                  subst h'
                  intro l hl
                  rcases List.mem_cons.mp hl with rfl | hl'
                  · exact line_piece_bound width _ hind _
                  · exact ih _ _ _ hrec l hl'

theorem wrapGo_noNl (width : Int) (ii si : String)
    (hii : noNl ii = true) (hsi : noNl si = true) :
    ∀ (fuel : Nat) (chunks : List String) (emitted : Bool) (ls : List String),
      (∀ ch ∈ chunks, noNl ch = true) →
      wrapGo width ii si fuel chunks emitted = some ls →
      ∀ l ∈ ls, noNl l = true := by
  intro fuel
  induction fuel with
  | zero =>
      intro chunks emitted ls hch h
      cases chunks with
      | nil =>
          rw [wrapGo] at h
          injection h with h'
          subst h'
          intro l hl
          exact absurd hl (List.not_mem_nil _)
      | cons c0 rest0 =>
          rw [wrapGo] at h
          exact Option.noConfusion h
  | succ fuel ih =>
      intro chunks emitted ls hch h
      cases chunks with
      | nil =>
          rw [wrapGo] at h
          injection h with h'
          subst h'
          intro l hl
          exact absurd hl (List.not_mem_nil _)
      | cons c0 rest0 =>
          simp only [wrapGo] at h
          have hindnl : noNl (if emitted = true then si else ii) = true := by
            cases emitted
            · simpa using hii
            · simpa using hsi
          by_cases hdrop : (emitted && chunkIsWs c0) = true
          · rw [if_pos hdrop] at h
            cases rest0 with
            | nil =>
                injection h with h'
                subst h'
                intro l hl
                exact absurd hl (List.not_mem_nil _)
            | cons c1 rest1 =>
                dsimp only at h
                have hch1 : ∀ ch ∈ c1 :: rest1, noNl ch = true := fun ch hm =>
                  hch ch (List.mem_cons_of_mem _ hm)
                have hlb := lineBuild_noNl
                  (width - (if emitted = true then si else ii).length) (c1 :: rest1) hch1
                by_cases hemp : (lineBuild (width - (if emitted = true then si else ii).length)
                    (c1 :: rest1)).1.isEmpty = true
                · rw [if_pos hemp] at h
                  exact ih _ _ _ hlb.2 h
                · rw [if_neg hemp] at h
                  cases hrec : wrapGo width ii si fuel
                      (lineBuild (width - (if emitted = true then si else ii).length)
                        (c1 :: rest1)).2 true with
                  | none => rw [hrec] at h; exact Option.noConfusion h
                  | some ls' =>
                      rw [hrec] at h
                      dsimp only at h
                      injection h with h'
                      subst h'
                      intro l hl
                      rcases List.mem_cons.mp hl with rfl | hl'
                      · rw [noNl_append, hindnl, noNl_pyJoin_nil _ hlb.1]
                        rfl
                      · exact ih _ _ _ hlb.2 hrec l hl'
          · rw [if_neg hdrop] at h
            dsimp only at h
            have hlb := lineBuild_noNl
              (width - (if emitted = true then si else ii).length) (c0 :: rest0) hch
            by_cases hemp : (lineBuild (width - (if emitted = true then si else ii).length)
                (c0 :: rest0)).1.isEmpty = true
            · rw [if_pos hemp] at h
              exact ih _ _ _ hlb.2 h
            · rw [if_neg hemp] at h
              cases hrec : wrapGo width ii si fuel
                  (lineBuild (width - (if emitted = true then si else ii).length)
                    (c0 :: rest0)).2 true with
              | none => rw [hrec] at h; exact Option.noConfusion h
              | some ls' =>
                  rw [hrec] at h
                  dsimp only at h
                  injection h with h'
                  subst h'
                  intro l hl
                  rcases List.mem_cons.mp hl with rfl | hl'
                  · rw [noNl_append, hindnl, noNl_pyJoin_nil _ hlb.1]
                    rfl
                  · exact ih _ _ _ hlb.2 hrec l hl'

theorem headingRule_length (lv : Int) : (headingRule lv).length = 79 := by
  unfold headingRule
  rw [length_toList, toList_asString]
  exact List.length_replicate _ _

theorem noNl_headingRule (lv : Int) : noNl (headingRule lv) = true := by
  unfold noNl headingRule
  rw [toList_asString, List.all_eq_true]
  intro c hc
  rw [List.eq_of_mem_replicate hc]
  by_cases h : lv = 1
  · rw [if_pos h]; decide
  · rw [if_neg h]; decide

/-! # Claims -/

/-- Claim C7 (confirmed): a hyperlink whose decoded target lacks the scheme
separator or equals its visible text is never assigned a reference: the
collector passes over it leaving both the state (no new entry) and the node
untouched, and after `find_references` on a freshly mapped tree its
`reference` field is still unset. -/
theorem c7_excluded_links_never_referenced :
    (∀ (s : RefState) (tx tg : String) (r : Option Ref),
        strContains (unquote tg) "://" = false ∨ unquote tg = tx →
        frNode s (.hyperLink tx tg r) = (s, .hyperLink tx tg r)) ∧
    (∀ (t : Node), refsUnset t = true →
      ∀ (tx tg : String) (r : Option Ref),
        (.hyperLink tx tg r) ∈ walkTree (find_references t).1 →
        strContains (unquote tg) "://" = false ∨ unquote tg = tx →
        r = none) := by
  constructor
  · intro s tx tg r hex
    simp only [frNode]
    by_cases h1 : unquote tg ∈ s.byTarget
    · rw [if_pos h1]
    · rw [if_neg h1, if_pos hex]
  · intro t hunset tx tg r hm hex
    exact refsUnset_spec hunset (frNode_excluded_mem t ⟨[], []⟩ tx tg r hm hex)

/-- Witness for C7: a relative link (`page.html`, no scheme separator) is
passed over with no state change, and keeps its unset reference through
`find_references`. -/
theorem c7_witness :
    frNode ⟨[], []⟩ (.hyperLink "x" "page.html" none) =
      (⟨[], []⟩, .hyperLink "x" "page.html" none) ∧
    (none : Option Ref) = none := by
  constructor
  · exact c7_excluded_links_never_referenced.1 ⟨[], []⟩ "x" "page.html" none
      (Or.inl (by decide))
  · exact c7_excluded_links_never_referenced.2
      (.inlineSeq [.hyperLink "x" "page.html" none]) (by decide) "x" "page.html" none
      (List.Mem.tail _ (List.Mem.head _)) (Or.inl (by decide))

/-- Claim C1 counterexample: on a tree with two hyperlinks to the same
absolute target, `find_references` produces one entry and assigns it to the
first link, but `continue`s past the duplicate before the assignment line, so
the second link's `reference` stays unset — not "both resolve to the entry's
number" as claimed. -/
theorem c1_counterexample :
    find_references
        (.inlineSeq [.hyperLink "a" "http://x" none, .hyperLink "b" "http://x" none]) =
      (.inlineSeq [.hyperLink "a" "http://x" (some ⟨1, "http://x"⟩),
                   .hyperLink "b" "http://x" none],
       [⟨1, "http://x"⟩]) ∧
    (none : Option Ref) ≠ some ⟨1, "http://x"⟩ :=
  ⟨rfl, by decide⟩

/-- Claim C1 amended: on a freshly mapped tree, the entry targets are
pairwise distinct (exactly one entry per decoded target), every hyperlink the
collector assigns holds an entry of the final list whose target is the link's
own decoded target (so the first of two duplicates resolves to the unique
entry for that target), and every qualifying hyperlink's target does have an
entry; a later duplicate's `reference` remains unset (see the
counterexample). -/
theorem c1_dedup_unique_assignment (t : Node) (h : refsUnset t = true) :
    ((find_references t).2.map Ref.target).Nodup ∧
    (∀ (tx tg : String) (ρ : Ref),
        (.hyperLink tx tg (some ρ)) ∈ walkTree (find_references t).1 →
        ρ ∈ (find_references t).2 ∧ ρ.target = unquote tg) ∧
    (∀ (tx tg : String) (r : Option Ref),
        (.hyperLink tx tg r) ∈ walkTree t →
        strContains (unquote tg) "://" = true → unquote tg ≠ tx →
        ∃ ρ ∈ (find_references t).2, ρ.target = unquote tg) := by
  refine ⟨?_, ?_, ?_⟩
  · have hok : stateOk (frNode ⟨[], []⟩ t).1 := frNode_stateOk t ⟨[], []⟩ rfl
    have hnd : (frNode ⟨[], []⟩ t).1.byTarget.Nodup := frNode_nodup t ⟨[], []⟩ List.nodup_nil
    unfold stateOk at hok
    rw [show (find_references t).2 = (frNode ⟨[], []⟩ t).1.byReference from rfl, ← hok]
    exact hnd
  · intro tx tg ρ hm
    rcases frNode_assigned_mem t ⟨[], []⟩ tx tg ρ hm with hin | hgood
    · exact absurd (refsUnset_spec h hin) (by simp)
    · exact hgood
  · intro tx tg r hm habs hne
    have hseen := frNode_qualifying_seen t ⟨[], []⟩ tx tg r hm habs hne
    have hok : stateOk (frNode ⟨[], []⟩ t).1 := frNode_stateOk t ⟨[], []⟩ rfl
    unfold stateOk at hok
    rw [hok] at hseen
    obtain ⟨ρ, hρ, hρt⟩ := List.mem_map.mp hseen
    exact ⟨ρ, hρ, hρt⟩

/-- Witness for C1: the two-duplicate tree of the counterexample satisfies
the amended statement — one entry, the first link resolved to it, and the
entry present for the shared target. -/
theorem c1_witness :
    ((find_references
        (.inlineSeq [.hyperLink "a" "http://x" none,
                     .hyperLink "b" "http://x" none])).2.map Ref.target).Nodup ∧
    ((⟨1, "http://x"⟩ : Ref) ∈ (find_references
        (.inlineSeq [.hyperLink "a" "http://x" none,
                     .hyperLink "b" "http://x" none])).2 ∧
      (⟨1, "http://x"⟩ : Ref).target = unquote "http://x") ∧
    (∃ ρ ∈ (find_references
        (.inlineSeq [.hyperLink "a" "http://x" none,
                     .hyperLink "b" "http://x" none])).2, ρ.target = unquote "http://x") := by
  have hmain := c1_dedup_unique_assignment
    (.inlineSeq [.hyperLink "a" "http://x" none, .hyperLink "b" "http://x" none]) (by decide)
  refine ⟨hmain.1, ?_, ?_⟩
  · exact hmain.2.1 "a" "http://x" ⟨1, "http://x"⟩ (List.Mem.tail _ (List.Mem.head _))
  · exact hmain.2.2 "a" "http://x" none (List.Mem.tail _ (List.Mem.head _))
      (by decide) (by decide)

/-- Claim C5 (confirmed): `shift_headings` is idempotent — after one run the
minimum heading level is at most 1, so the second run shifts by nothing. -/
theorem c5_shift_headings_idempotent (t : Node) :
    shift_headings (shift_headings t) = shift_headings t := by
  cases h : minHeadingLevel t with
  | none =>
      have ht : shift_headings t = t := by unfold shift_headings; rw [h]
      rw [ht, ht]
  | some m =>
      by_cases hm : 1 < m
      · have h1 : shift_headings t = shiftNode (m - 1) t := by
          unfold shift_headings; rw [h]; exact if_pos hm
        have h2 : minHeadingLevel (shiftNode (m - 1) t) = some 1 := by
          rw [minHeadingLevel_shiftNode, h, Option.map_some']
          congr 1
          omega
        rw [h1]
        unfold shift_headings
        rw [h2]
        exact if_neg (by omega)
      · have h1 : shift_headings t = t := by
          unfold shift_headings; rw [h]; exact if_neg hm
        rw [h1, h1]

/-- Claim C6 (confirmed): on a tree whose heading levels all lie in 1..6,
`shift_headings` leaves a tree whose heading levels are all ≥ 1 with minimum
exactly 1; a tree without headings is left unchanged. -/
theorem c6_heading_normalization_invariant (t : Node)
    (hrange : ∀ l ∈ headingLevels t, 1 ≤ l ∧ l ≤ 6) :
    (headingLevels t = [] → shift_headings t = t) ∧
    (headingLevels t ≠ [] →
      (∀ l ∈ headingLevels (shift_headings t), 1 ≤ l) ∧
      minHeadingLevel (shift_headings t) = some 1) := by
  constructor
  · intro he
    have hnone : minHeadingLevel t = none := by
      rw [minHeadingLevel_eq, he]; rfl
    unfold shift_headings; rw [hnone]
  · intro hne
    cases h : minHeadingLevel t with
    | none =>
        exact absurd ((levMin_eq_none _).mp (by rw [← minHeadingLevel_eq]; exact h)) hne
    | some m =>
        have hspec := levMin_spec (headingLevels t) m (by rw [← minHeadingLevel_eq]; exact h)
        have hm1 : 1 ≤ m := (hrange m hspec.1).1
        by_cases hm : 1 < m
        · have h1 : shift_headings t = shiftNode (m - 1) t := by
            unfold shift_headings; rw [h]; exact if_pos hm
          rw [h1]
          constructor
          · intro l hl
            rw [headingLevels_shiftNode] at hl
            obtain ⟨x, hx, rfl⟩ := List.mem_map.mp hl
            have := hspec.2 x hx
            omega
          · rw [minHeadingLevel_shiftNode, h, Option.map_some']
            congr 1
            omega
        · have hm' : m = 1 := by omega
          have h1 : shift_headings t = t := by
            unfold shift_headings; rw [h]; exact if_neg hm
          rw [h1]
          exact ⟨fun l hl => (hrange l hl).1, by rw [h, hm']⟩

/-- Witness for C6: a tree with headings at levels 3 and 5 normalizes to
minimum level 1 with all levels ≥ 1. -/
theorem c6_witness :
    (headingLevels (.blockSeq [.heading 3 [], .heading 5 []]) = [] →
      shift_headings (.blockSeq [.heading 3 [], .heading 5 []]) =
        .blockSeq [.heading 3 [], .heading 5 []]) ∧
    (headingLevels (.blockSeq [.heading 3 [], .heading 5 []]) ≠ [] →
      (∀ l ∈ headingLevels (shift_headings (.blockSeq [.heading 3 [], .heading 5 []])),
        1 ≤ l) ∧
      minHeadingLevel (shift_headings (.blockSeq [.heading 3 [], .heading 5 []])) =
        some 1) :=
  c6_heading_normalization_invariant (.blockSeq [.heading 3 [], .heading 5 []]) (by decide)

/-- Claim C2 (confirmed): a `HyperLink` node whose `reference` field was
never assigned renders to `none` — the renderer dereferences `reference`
unconditionally and never falls back to the visible text alone. -/
theorem c2_unresolved_hyperlink_render_fails (tx tg : String) (level : Nat) :
    renderNode (.hyperLink tx tg none) level = none := rfl

/-- Claim C4 counterexample: for `<pre>  foo\n    bar\n  </pre>` the render
at level 0 is not the bare fence plus dedented lines `"foo"`, `"  bar"` — the
renderer also indents every body line by the fixed `level + 4 = 4` spaces. -/
theorem c4_counterexample :
    simplify_node (.element "pre" [] [.nstring "  foo\n    bar\n  "]) =
      some (.pre "  foo\n    bar\n  ") ∧
    renderNode (.pre "  foo\n    bar\n  ") 0 ≠ some ">\nfoo\n  bar" :=
  ⟨rfl, by decide⟩

/-- Claim C4 amended: the render is the `>` fence line followed by the
dedented lines, each indented by the fixed 4-space offset (`"    foo"`,
`"      bar"`), with no trailing blank line. -/
theorem c4_pre_render_exact :
    simplify_node (.element "pre" [] [.nstring "  foo\n    bar\n  "]) =
      some (.pre "  foo\n    bar\n  ") ∧
    renderNode (.pre "  foo\n    bar\n  ") 0 =
      some (pyJoin "\n" [">", "    foo", "      bar"]) ∧
    linesOf (pyJoin "\n" [">", "    foo", "      bar"]) = [">", "    foo", "      bar"] :=
  ⟨rfl, rfl, rfl⟩

/-- Claim C3 counterexample: with the default shift-width 2 and the ordered
bullet `"1. "` of length 3, the source renders the item at `level + 3/2 =
level + 1` (floor), not `level + 2` (ceiling) as the claim states: the two
readings produce different output on a one-item ordered list holding a
preformatted block. -/
theorem c3_counterexample :
    renderNode (.list true [.listItem [.pre "x"]]) 0 ≠
      renderListCeilSpec true [.listItem [.pre "x"]] 0 ∧
    renderNode (.list true [.listItem [.pre "x"]]) 0 = some "1. >\n     x" ∧
    renderListCeilSpec true [.listItem [.pre "x"]] 0 = some "1. >\n      x" :=
  ⟨by decide, rfl, rfl⟩

/-- Claim C3 amended: `List.render` renders the i-th `ListItem` at
`level + len(bullet) / shift-width` with floor (Python 2 integer) division —
so the bullet `"N. "` of length 3 yields child level `level + 1` — and
assembles the items exactly as `itemPieces` describes. -/
theorem c3_list_child_level_floor (ordered : Bool) (cs : List Node) (level : Nat) :
    renderNode (.list ordered cs) level =
      match itemPieces ordered level 0 cs with
      | none => none
      | some ps =>
          some (pyJoin (if ps.any (fun p => containsChar '\n' p.2) then "\n\n" else "\n")
            (ps.map (fun p => spaces (level * SHIFT_WIDTH) ++ p.1 ++ pyLstrip p.2))) := by
  have h := renderListGo_itemPieces ordered level cs [] "\n"
  simp only [List.length_nil, List.nil_append] at h
  rw [show renderNode (.list ordered cs) level = renderListGo ordered level cs [] "\n" from rfl, h]

/-- Claim C8 counterexample: at nesting level 40 the paragraph indent is 80
spaces, the effective wrap width is negative, and the renderer emits lines of
length 81 > 79 — the claim's bound fails without a restriction on the
indentation. -/
theorem c8_counterexample :
    renderNode (.paragraph [.text "aa"]) 40 =
      some (spaces 80 ++ "a" ++ "\n" ++ (spaces 80 ++ "a")) ∧
    (spaces 80 ++ "a") ∈ linesOf (spaces 80 ++ "a" ++ "\n" ++ (spaces 80 ++ "a")) ∧
    TEXT_WIDTH < (spaces 80 ++ "a").length :=
  ⟨rfl, by decide, by decide⟩

/-- Claim C8 amended: whenever the paragraph's indentation leaves at least
one column (`level * shift-width + 1 ≤ text-width`, i.e. `level ≤ 39`), every
line of a successful paragraph render has length ≤ text-width; every line of
a successful heading render has length ≤ text-width unconditionally, the body
lines being wrapped to text-width − 2 columns before the `" ~"` suffix is
appended, below a 79-character rule line. -/
theorem c8_wrap_width_bound :
    (∀ (cs : List Node) (level : Nat) (s : String),
        level * SHIFT_WIDTH + 1 ≤ TEXT_WIDTH →
        renderNode (.paragraph cs) level = some s →
        ∀ l ∈ linesOf s, l.length ≤ TEXT_WIDTH) ∧
    (∀ (lv : Int) (cs : List Node) (level : Nat) (s : String),
        renderNode (.heading lv cs) level = some s →
        (∀ l ∈ linesOf s, l.length ≤ TEXT_WIDTH) ∧
        ∃ ws : List String,
          linesOf s = headingRule lv :: List.map (fun w => w ++ " ~") ws ∧
          ∀ w ∈ ws, w.length ≤ TEXT_WIDTH - 2) := by
  constructor
  · intro cs level s hlevel hr
    simp only [renderNode] at hr
    cases hre : renderEach cs level with
    | none => rw [hre] at hr; exact Option.noConfusion hr
    | some parts =>
        rw [hre] at hr
        dsimp only at hr
        cases hw : pyWrap (compact (pyJoin "" parts)) (TEXT_WIDTH : Int)
            (spaces (level * SHIFT_WIDTH)) (spaces (level * SHIFT_WIDTH)) with
        | none => rw [hw] at hr; exact Option.noConfusion hr
        | some ws =>
            rw [hw] at hr
            dsimp only at hr
            injection hr with hr'
            subst hr'
            simp only [pyWrap] at hw
            have hind : ((spaces (level * SHIFT_WIDTH)).length : Int) + 1 ≤ (TEXT_WIDTH : Int) := by
              rw [spaces_length]
              exact_mod_cast hlevel
            have hbound := wrapGo_bound (TEXT_WIDTH : Int) _ _ hind hind _ _ _ _ hw
            cases ws with
            | nil =>
                intro l hl
                have hempty : linesOf (pyJoin "\n" ([] : List String)) = [""] := rfl
                rw [hempty, List.mem_singleton] at hl
                subst hl
                decide
            | cons w ws' =>
                have hnl : ∀ l ∈ w :: ws', noNl l = true :=
                  wrapGo_noNl (TEXT_WIDTH : Int) _ _ (noNl_spaces _) (noNl_spaces _) _ _ _ _
                    (splitChunks_noNl _ (noNl_munge _)) hw
                rw [linesOf_pyJoin _ hnl (List.cons_ne_nil _ _)]
                intro l hl
                exact_mod_cast hbound l hl
  · intro lv cs level s hr
    simp only [renderNode] at hr
    cases hre : renderEach cs level with
    | none => rw [hre] at hr; exact Option.noConfusion hr
    | some parts =>
        rw [hre] at hr
        dsimp only at hr
        cases hw : pyWrap (compact (pyJoin "" parts)) ((TEXT_WIDTH : Int) - 2) "" "" with
        | none => rw [hw] at hr; exact Option.noConfusion hr
        | some ws =>
            rw [hw] at hr
            dsimp only at hr
            injection hr with hr'
            subst hr'
            simp only [pyWrap] at hw
            have hind : ((("" : String).length : Int) + 1 ≤ (TEXT_WIDTH : Int) - 2) := by
              have h0 : ("" : String).length = 0 := rfl
              rw [h0]
              norm_num [TEXT_WIDTH]
            have hbound := wrapGo_bound ((TEXT_WIDTH : Int) - 2) _ _ hind hind _ _ _ _ hw
            have hnlw : ∀ l ∈ ws, noNl l = true :=
              wrapGo_noNl ((TEXT_WIDTH : Int) - 2) _ _ (by decide) (by decide) _ _ _ _
                (splitChunks_noNl _ (noNl_munge _)) hw
            have hallnl : ∀ l ∈ headingRule lv :: ws.map (fun w => w ++ " ~"),
                noNl l = true := by
              intro l hl
              rcases List.mem_cons.mp hl with rfl | hl
              · exact noNl_headingRule lv
              · obtain ⟨w, hwm, rfl⟩ := List.mem_map.mp hl
                rw [noNl_append, hnlw w hwm]
                rfl
            have hlines : linesOf (pyJoin "\n" (headingRule lv :: ws.map (fun w => w ++ " ~")))
                = headingRule lv :: ws.map (fun w => w ++ " ~") :=
              linesOf_pyJoin _ hallnl (List.cons_ne_nil _ _)
            have hw77 : ∀ w ∈ ws, w.length ≤ 77 := by
              intro w hwm
              have := hbound w hwm
              have h79 : ((TEXT_WIDTH : Int) - 2) = 77 := by norm_num [TEXT_WIDTH]
              rw [h79] at this
              exact_mod_cast this
            constructor
            · rw [hlines]
              intro l hl
              rcases List.mem_cons.mp hl with rfl | hl
              · rw [headingRule_length]
                norm_num [TEXT_WIDTH]
              · obtain ⟨w, hwm, rfl⟩ := List.mem_map.mp hl
                rw [String.length_append]
                have h2 : (" ~" : String).length = 2 := rfl
                rw [h2]
                have := hw77 w hwm
                show _ ≤ TEXT_WIDTH
                norm_num [TEXT_WIDTH]
                omega
            · exact ⟨ws, hlines, fun w hwm => by
                have := hw77 w hwm
                norm_num [TEXT_WIDTH]
                omega⟩

/-- Witness for C8: a short paragraph at level 0 and a short level-2 heading
both stay within the 79-column bound. -/
theorem c8_witness :
    (∀ l ∈ linesOf "Hello world", l.length ≤ TEXT_WIDTH) ∧
    (∀ l ∈ linesOf (headingRule 2 ++ "\nTitle ~"), l.length ≤ TEXT_WIDTH) := by
  constructor
  · exact c8_wrap_width_bound.1 [.text "Hello world"] 0 "Hello world" (by decide) rfl
  · exact (c8_wrap_width_bound.2 2 [.text "Title"] 0 (headingRule 2 ++ "\nTitle ~") rfl).1

/-- Claim C10 (confirmed): `List.render` renders only the `ListItem`
children; any other child is omitted and does not advance the item
numbering — rendering the list equals rendering the list restricted to its
`ListItem` children. -/
theorem c10_list_renders_only_items (ordered : Bool) (cs : List Node) (level : Nat) :
    renderNode (.list ordered cs) level =
      renderNode (.list ordered (cs.filter isListItemNode)) level :=
  renderListGo_filter ordered level cs [] "\n"

/-- Claim C9 counterexample: mapping an element whose name is not in the
mapping table can still fail — the flattening recurses into the children, and
a hyperlink child without `href` propagates its hard failure. -/
theorem c9_counterexample :
    "div" ∉ name_to_type_names ∧
    simplify_node (.element "div" [] [.element "a" [] []]) = none :=
  ⟨by decide, rfl⟩

/-- Claim C9 amended: a hyperlink element without an `href` attribute fails
hard (`none`, the `KeyError`); an element with an unregistered name adds no
failure of its own — whenever all of its children map successfully it
flattens them into a block or inline sequence (block iff some child is block
level). -/
theorem c9_mapping_error_behavior :
    (∀ (attrs : List (String × String)) (cs : List HtmlNode),
        lookupAttr attrs "href" = none →
        simplify_node (.element "a" attrs cs) = none) ∧
    (∀ (nm : String) (attrs : List (String × String)) (cs : List HtmlNode) (rs : List Node),
        nm ∉ name_to_type_names →
        simplifyKids cs = some rs →
        simplify_node (.element nm attrs cs) =
          some (if is_block_level rs then .blockSeq rs else .inlineSeq rs)) := by
  constructor
  · intro attrs cs h
    simp [simplify_node, h]
  · intro nm attrs cs rs hnm hkids
    simp only [name_to_type_names, List.mem_cons, List.mem_singleton, not_or] at hnm
    obtain ⟨h1, h2, h3, h4, h5, h6, hp, hpre, hul, hol, hli, htab, ha, -⟩ := hnm
    simp only [simplify_node]
    rw [if_neg (by simp [h1, h2, h3, h4, h5, h6]), if_neg hp, if_neg hpre,
      if_neg (by simp [hul, hol]), if_neg hli, if_neg htab, if_neg ha, hkids]

/-- Witness for C9: a hyperlink element carrying only a `class` attribute
fails; an unregistered `div` with one text child flattens to an inline
sequence. -/
theorem c9_witness :
    simplify_node (.element "a" [("class", "x")] []) = none ∧
    simplify_node (.element "div" [] [.nstring "x"]) = some (.inlineSeq [.text "x"]) := by
  constructor
  · exact c9_mapping_error_behavior.1 [("class", "x")] [] rfl
  · exact (c9_mapping_error_behavior.2 "div" [] [.nstring "x"] [.text "x"]
      (by decide) rfl).trans rfl

end Html2Vimdoc


